import Mathlib

/-!
Shallow embedding of the GraphOntologyModeler core (src/ontology.py and the
older variant src/onthology.py): the meta-ontology structural validator, the
schema compiler (`load_ontology_from_yaml` minus file reading — it consumes an
already-parsed nested mapping), the derived instance validator, and the
topology loader.  Documents are modelled as ordered key-value sequences, the
shape produced by parsing YAML mappings (whose keys are unique); the embedding
also covers sequences with repeated keys, matching the repeated-assignment
semantics the code applies to each processed entry.
-/

namespace GraphOntology

/-- Parsed document values: the subset of Python/YAML values the programs
manipulate (`None`, booleans, integers, strings, sequences, mappings). -/
inductive Value where
  | vnull
  | vbool (b : Bool)
  | vint (n : Int)
  | vstr (s : String)
  | vlist (xs : List Value)
  | vdict (entries : List (String × Value))

/-- Python `==` on embedded values, structural.  (Python's numeric equality
identifying `True` with `1` is not modelled; no compiled condition in the
claims compares booleans with integers.) -/
def Value.eqb : Value → Value → Bool
  | .vnull, .vnull => true
  | .vbool a, .vbool b => a == b
  | .vint a, .vint b => a == b
  | .vstr a, .vstr b => a == b
  | .vlist a, .vlist b => eqbList a b
  | .vdict a, .vdict b => eqbPairs a b
  | _, _ => false
where
  eqbList : List Value → List Value → Bool
    | [], [] => true
    | x :: xs, y :: ys => Value.eqb x y && eqbList xs ys
    | _, _ => false
  eqbPairs : List (String × Value) → List (String × Value) → Bool
    | [], [] => true
    | (k, x) :: xs, (l, y) :: ys => k == l && Value.eqb x y && eqbPairs xs ys
    | _, _ => false

/-- `d.get(k)` / `d[k]` on a Python mapping modelled as a key-value sequence.
The sequences we build keep keys unique, so the first match is the entry. -/
def alookup {α : Type} : List (String × α) → String → Option α
  | [], _ => none
  | (k, v) :: rest, key => if k == key then some v else alookup rest key

/-- `d[k] = v` on a Python mapping: overwriting keeps the key's original
position, a fresh key is appended. -/
def ainsert {α : Type} : List (String × α) → String → α → List (String × α)
  | [], key, v => [(key, v)]
  | (k, w) :: rest, key, v =>
    if k == key then (k, v) :: rest else (k, w) :: ainsert rest key v

/-- Keys of a mapping. -/
def akeys {α : Type} (l : List (String × α)) : List String := l.map Prod.fst

/-! ## Validator layer

A validation condition is what ends up as a value of the generated schema
dictionaries: either a Python type object (produced by `eval` of a type name,
checked by the schema library with `isinstance`) or any other object, checked
by the schema library with `==` (its COMPARABLE flavor).  `None` is such a
comparable object: a `null` validator spec is stored as the literal `None` and
therefore only accepts `None`. -/

/-- Python type objects the embedded `eval` fragment can produce. -/
inductive PyType where
  | tInt
  | tStr
  | tBool
  | tList
  | tDict
deriving DecidableEq

/-- A compiled validation condition (a value of a schema dictionary). -/
inductive Cond where
  | ofType (t : PyType)
  | eq (v : Value)

/-- `isinstance(v, t)`.  Python's `bool` is a subclass of `int`, so a boolean
is an instance of `int`. -/
def isInstanceOf (t : PyType) (v : Value) : Bool :=
  match t, v with
  | .tInt, .vint _ => true
  | .tInt, .vbool _ => true
  | .tBool, .vbool _ => true
  | .tStr, .vstr _ => true
  | .tList, .vlist _ => true
  | .tDict, .vdict _ => true
  | _, _ => false

/-- The schema library checking a datum against a leaf schema: a type is
checked with `isinstance`, any other object with `==`. -/
def checkCond (c : Cond) (v : Value) : Bool :=
  match c with
  | .ofType t => isInstanceOf t v
  | .eq w => Value.eqb w v

/-- Errors a compile (`load_ontology_from_yaml` minus file reading) can raise:
the `SchemaError` from meta-ontology validation, the `NameError` that
`eval` raises on an undefined name such as `"integer"`, the `AssertionError`s
of the parsing code, and the `TypeError`/`AttributeError` that iterating a
non-mapping would raise (unreachable after meta validation). -/
inductive CompileErr where
  | metaSchemaViolation
  | nameError
  | noChildren
  | tooManyDestinations
  | missingDestination
  | notAMapping
deriving DecidableEq

/-- Modelled fragment of Python `eval` as the code uses it on validator-spec
strings: a bare builtin type name evaluates to the corresponding type object;
any other text is treated as raising (as the undefined name `"integer"`
does).  Predicate expressions are outside the embedded fragment. -/
def evalPy (s : String) : Except CompileErr Cond :=
  if s == "int" then .ok (.ofType .tInt)
  else if s == "str" then .ok (.ofType .tStr)
  else if s == "bool" then .ok (.ofType .tBool)
  else if s == "list" then .ok (.ofType .tList)
  else if s == "dict" then .ok (.ofType .tDict)
  else .error .nameError

/-- A validator spec from the meta-document becomes a validation condition:
a string is `eval`ed; any other value is stored as-is and later compared with
`==`.  (A mapping-valued spec would be treated by the schema library as a
nested schema; no claim and no document in this development uses one, and we
embed it as the equality leaf the stored object is.) -/
def compileSpec (v : Value) : Except CompileErr Cond :=
  match v with
  | .vstr s => evalPy s
  | v => .ok (.eq v)

/-- `edge_attributes` bookkeeping of `_parse_attribute_labels`: the original
spec value is kept only if its runtime type is one of `LITERAL_TYPES`
(`int`, `str`, `list`, `dict`, ...); a string was already replaced by its
`eval` result (a type object, whose type `type` is not in the set), `None`
and booleans are not in the set either. -/
def vizValue (v : Value) : Option Value :=
  match v with
  | .vint n => some (.vint n)
  | .vlist xs => some (.vlist xs)
  | .vdict d => some (.vdict d)
  | _ => none

/-! ## The fixed meta-ontology structural grammar

`Ontology.META_ONTOLOGY` (identical to `Onthology.META_ONTHOLOGY`): the top
level is a mapping from class names to `null` or a class body; the required
`str` key pattern makes the empty mapping invalid.  A class body maps the
optional key `"attributes"` to `null` or a non-empty mapping of specs, and
every other key (an edge label) to a mapping that must contain exactly one
destination (the `len(d) == 1` lambda), each destination mapping to `null` or
a non-empty mapping of specs. -/

/-- Validation of one destination's attribute map: `Or(None, {str: Or(None,
object)})`; the required `str` key makes an empty mapping invalid. -/
def checkAttrMapVal (v : Value) : Bool :=
  match v with
  | .vnull => true
  | .vdict attrs => !attrs.isEmpty
  | _ => false

/-- Validation of one class-body entry against `META_ONTOLOGY`. -/
def checkBodyEntry (k : String) (v : Value) : Bool :=
  if k == "attributes" then
    checkAttrMapVal v
  else
    match v with
    | .vdict dests =>
      dests.all (fun p => checkAttrMapVal p.2) && dests.length == 1
    | _ => false

/-- `Ontology.validate_ontology_dict(doc, META_ONTOLOGY)` as a predicate:
`true` iff validation passes (otherwise the code raises `SchemaError`, with
the `'exactly one destination is required'` message for a malformed edge). -/
def checkMetaDoc (doc : Value) : Bool :=
  match doc with
  | .vdict entries =>
    (!entries.isEmpty) &&
      entries.all (fun p =>
        match p.2 with
        | .vnull => true
        | .vdict body => body.all (fun q => checkBodyEntry q.1 q.2)
        | _ => false)
  | _ => false

/-! ## The derived instance validator

`_parse_ontology_schema` synthesizes `Schema(Or(None, ontology_schema_dict))`
where `ontology_schema_dict[Opt(cls)] = Or(None, {str: Or(None,
source_schema_dict)})` and `source_schema_dict` maps each plain attribute to
its condition and each edge label to `{str: Or(None,
attribute_labels_schema_dict)}`.  We embed exactly these generated shapes. -/

/-- One entry of a class's `source_schema_dict`. -/
inductive SEntry where
  | attr (c : Cond)
  | edge (attrs : List (String × Cond))

/-- The derived instance validator: the `ontology_schema_dict`. -/
def ISchema : Type := List (String × List (String × SEntry))

/-- Validation of an edge label's value: `{str: Or(None, attrs_dict)}`.  The
required `str` key makes an empty mapping invalid; each destination instance
maps to `null` or a mapping whose keys must all be declared attributes. -/
def checkEdgeVal (attrs : List (String × Cond)) (v : Value) : Bool :=
  match v with
  | .vdict dests =>
    (!dests.isEmpty) &&
      dests.all (fun p =>
        match p.2 with
        | .vnull => true
        | .vdict das =>
          das.all (fun q =>
            match alookup attrs q.1 with
            | some c => checkCond c q.2
            | none => false)
        | _ => false)
  | _ => false

/-- Validation of one instance's value: `Or(None, source_schema_dict)`; a key
matching no schema key is a wrong key. -/
def checkInstVal (srcSchema : List (String × SEntry)) (v : Value) : Bool :=
  match v with
  | .vnull => true
  | .vdict attrs =>
    attrs.all (fun p =>
      match alookup srcSchema p.1 with
      | some (.attr c) => checkCond c p.2
      | some (.edge as) => checkEdgeVal as p.2
      | none => false)
  | _ => false

/-- Validation of one class's value: `Or(None, {str: Or(None,
source_schema_dict)})`; the required `str` key makes an empty mapping
invalid. -/
def checkClassVal (srcSchema : List (String × SEntry)) (v : Value) : Bool :=
  match v with
  | .vnull => true
  | .vdict insts =>
    (!insts.isEmpty) && insts.all (fun p => checkInstVal srcSchema p.2)
  | _ => false

/-- The whole derived validator `Schema(Or(None, ontology_schema_dict))`
applied to an instance document: `null` is accepted outright. -/
def checkInstanceTop (sch : ISchema) (doc : Value) : Bool :=
  match doc with
  | .vnull => true
  | .vdict entries =>
    entries.all (fun p =>
      match alookup sch p.1 with
      | some srcSchema => checkClassVal srcSchema p.2
      | none => false)
  | _ => false

/-! ## The schema compiler (`Ontology`, src/ontology.py)

`AbstractNode.id()` returns `self.name`, so every registry in the program is
keyed by name alone.  `MetaNode` and `Node` objects are shared through the
registries and mutated in place; the embedding therefore stores object ids in
edges and performs every mutation through the registry entry of that id. -/

/-- A class declaration: its name and its set of attribute names (a Python
set; we keep first-insertion order, duplicates are not re-added). -/
structure MetaNode where
  name : String
  attributes : List String
deriving DecidableEq

/-- A relation declaration.  The source and destination fields hold `MetaNode`
object references in the code; their observable identity is `id()`, the name,
which is what we store.  `attributes` is the visualization-only
`edge_attributes` mapping (`None` when the attribute map was `null`). -/
structure MetaEdge where
  sourceId : String
  destinationId : String
  label : String
  attributes : Option (List (String × Option Value))

/-- `set.add`: insert if absent, keeping first-insertion order. -/
def addToSet (l : List String) (a : String) : List String :=
  if l.contains a then l else l ++ [a]

/-- The mutable state of an `Ontology` object while
`_parse_ontology_schema` runs: `meta_nodes` and `meta_edges`. -/
structure PState where
  metaNodes : List (String × MetaNode)
  metaEdges : List (String × List (String × MetaEdge))

/-- `Ontology.get_node`, state part: return the registered node for `name`,
creating and registering a fresh attribute-less one if absent. -/
def registerNode (st : PState) (name : String) : PState :=
  match alookup st.metaNodes name with
  | some _ => st
  | none => { st with metaNodes := st.metaNodes ++ [(name, ⟨name, []⟩)] }

/-- `source_node.attributes.add(attr)`: the node object lives in the
`meta_nodes` registry, so the mutation updates that entry. -/
def addAttrToNode (st : PState) (srcName : String) (attr : String) : PState :=
  match alookup st.metaNodes srcName with
  | some n =>
    { st with metaNodes :=
        ainsert st.metaNodes srcName ⟨n.name, addToSet n.attributes attr⟩ }
  | none => st

/-- `Ontology.add_edge`: `meta_edges[source.id()][label] = edge`, creating the
inner mapping if needed — a later edge for the same key overwrites. -/
def addEdgeS (st : PState) (e : MetaEdge) : PState :=
  let inner := (alookup st.metaEdges e.sourceId).getD []
  { st with metaEdges :=
      ainsert st.metaEdges e.sourceId (ainsert inner e.label e) }

/-- `Ontology._parse_attribute_labels`: compile each spec into the schema
dictionary and build the visualization mapping; a `null` attribute map yields
`None` and an empty schema dictionary. -/
def parseAttributeLabels (v : Value) :
    Except CompileErr (Option (List (String × Option Value)) × List (String × Cond)) :=
  match v with
  | .vnull => .ok (none, [])
  | .vdict items => do
    let r ← parseAttributeLabelsGo items [] []
    .ok (some r.1, r.2)
  | _ => .error .notAMapping
where
  parseAttributeLabelsGo :
      List (String × Value) → List (String × Option Value) → List (String × Cond) →
      Except CompileErr (List (String × Option Value) × List (String × Cond))
    | [], ea, sd => .ok (ea, sd)
    | (l, vc) :: rest, ea, sd => do
      let c ← compileSpec vc
      parseAttributeLabelsGo rest (ainsert ea l (vizValue vc)) (ainsert sd l c)

/-- `Ontology._parse_source_attributes`: compile each `attributes` entry,
record it in the class's schema fragment, and add the name to the class's
attribute set. -/
def parseSourceAttributes (st : PState) (srcName : String) :
    List (String × Value) → List (String × SEntry) →
    Except CompileErr (PState × List (String × SEntry))
  | [], sd => .ok (st, sd)
  | (l, vc) :: rest, sd => do
    let c ← compileSpec vc
    parseSourceAttributes (addAttrToNode st srcName l) srcName rest
      (ainsert sd l (.attr c))

/-- `Ontology._parse_edges`: assert exactly one destination, compile its
attribute map, get-or-create the destination node, register the `MetaEdge`
(overwriting any earlier one for the same source and label), and record the
edge's schema fragment. -/
def parseEdges (st : PState) (srcName edgeLabel : String) (v : Value)
    (sd : List (String × SEntry)) :
    Except CompileErr (PState × List (String × SEntry)) :=
  match v with
  | .vdict dests =>
    if dests.length > 1 then .error .tooManyDestinations
    else
      match dests with
      | [] => .error .missingDestination
      | (destLabel, attrLabels) :: _ => do
        let r ← parseAttributeLabels attrLabels
        let st := registerNode st destLabel
        let st := addEdgeS st ⟨srcName, destLabel, edgeLabel, r.1⟩
        .ok (st, ainsert sd edgeLabel (.edge r.2))
  | _ => .error .notAMapping

/-- The loop body of `Ontology._parse_source_schema`: a `null` value fails the
has-no-children assertion, the `attributes` key is parsed as plain attributes,
every other key as an edge. -/
def parseSourceBody (st : PState) (srcName : String) :
    List (String × Value) → List (String × SEntry) →
    Except CompileErr (PState × List (String × SEntry))
  | [], sd => .ok (st, sd)
  | (l, v) :: rest, sd =>
    match v with
    | .vnull => .error .noChildren
    | _ =>
      if l == "attributes" then
        match v with
        | .vdict items => do
          let r ← parseSourceAttributes st srcName items sd
          parseSourceBody r.1 srcName rest r.2
        | _ => .error .notAMapping
      else do
        let r ← parseEdges st srcName l v sd
        parseSourceBody r.1 srcName rest r.2

/-- `Ontology._parse_source_schema`: register the source class, then process
its body. -/
def parseSourceSchema (st : PState) (srcName : String)
    (body : List (String × Value)) :
    Except CompileErr (PState × List (String × SEntry)) :=
  parseSourceBody (registerNode st srcName) srcName body []

/-- `Ontology._parse_ontology_schema`: process every top-level class in
document order, skipping a class whose body is `null` (its `MetaNode` is never
registered by this variant), and assemble the derived instance validator. -/
def parseOntologySchema (st : PState) :
    List (String × Value) → ISchema → Except CompileErr (PState × ISchema)
  | [], osd => .ok (st, osd)
  | (srcLabel, body) :: rest, osd =>
    match body with
    | .vnull => parseOntologySchema st rest osd
    | .vdict items => do
      let r ← parseSourceSchema st srcLabel items
      parseOntologySchema r.1 rest (ainsert osd srcLabel r.2)
    | _ => .error .notAMapping

/-- The compiled meta-model: the `Ontology` object after a successful
`load_ontology_from_yaml`, with its derived instance validator. -/
structure Ontology where
  metaNodes : List (String × MetaNode)
  metaEdges : List (String × List (String × MetaEdge))
  ischema : ISchema

/-- `Ontology.load_ontology_from_yaml` minus the file reading: validate the
already-parsed document against `META_ONTOLOGY` (raising `SchemaError` on
mismatch, before any `Ontology` object exists), then parse it.  (The early
return for a `None` document is dead code here: meta validation rejects
`None` first.) -/
def load_ontology (doc : Value) : Except CompileErr Ontology :=
  if checkMetaDoc doc then
    match doc with
    | .vdict entries => do
      let r ← parseOntologySchema ⟨[], []⟩ entries []
      .ok ⟨r.1.metaNodes, r.1.metaEdges, r.2⟩
    | _ => .error .metaSchemaViolation
  else .error .metaSchemaViolation

/-- `Ontology.get_edge_by_source_and_label`:
`meta_edges.get(source_id, {}).get(label, None)`. -/
def getEdge (ont : Ontology) (sourceId label : String) : Option MetaEdge :=
  alookup ((alookup ont.metaEdges sourceId).getD []) label

/-! ## The older variant (`Onthology`, src/onthology.py)

Same data model and meta grammar (`META_ONTHOLOGY` is textually identical to
`META_ONTOLOGY`), but `load_onthology_from_yaml` parses inline and calls
`get_node(source_label)` *before* the `edge_labels is None` check, so a
null-bodied top-level class is registered.  Its `MetaEdge.attributes` is a set
of attribute names instead of a mapping. -/

/-- The variant's relation declaration: `attributes` is
`set(attribute_labels.keys())`, or `None` for a `null` attribute map. -/
structure OnthMetaEdge where
  sourceId : String
  destinationId : String
  label : String
  attributes : Option (List String)

/-- The variant's `Onthology` object state while parsing. -/
structure OnthState where
  metaNodes : List (String × MetaNode)
  metaEdges : List (String × List (String × OnthMetaEdge))

/-- `Onthology.get_node`, state part. -/
def onthRegisterNode (st : OnthState) (name : String) : OnthState :=
  match alookup st.metaNodes name with
  | some _ => st
  | none => { st with metaNodes := st.metaNodes ++ [(name, ⟨name, []⟩)] }

/-- The variant's `source_node.attributes.add(attr)` through the registry. -/
def onthAddAttrToNode (st : OnthState) (srcName attr : String) : OnthState :=
  match alookup st.metaNodes srcName with
  | some n =>
    { st with metaNodes :=
        ainsert st.metaNodes srcName ⟨n.name, addToSet n.attributes attr⟩ }
  | none => st

/-- `Onthology.add_edge`. -/
def onthAddEdge (st : OnthState) (e : OnthMetaEdge) : OnthState :=
  let inner := (alookup st.metaEdges e.sourceId).getD []
  { st with metaEdges :=
      ainsert st.metaEdges e.sourceId (ainsert inner e.label e) }

/-- The variant's inline attribute-label loop for an edge: compile each spec
into the schema dictionary; the edge's attribute set is the key set. -/
def onthParseAttrLabels (v : Value) :
    Except CompileErr (Option (List String) × List (String × Cond)) :=
  match v with
  | .vnull => .ok (none, [])
  | .vdict items => do
    let sd ← onthParseAttrLabelsGo items []
    .ok (some (akeys items), sd)
  | _ => .error .notAMapping
where
  onthParseAttrLabelsGo :
      List (String × Value) → List (String × Cond) →
      Except CompileErr (List (String × Cond))
    | [], sd => .ok sd
    | (l, vc) :: rest, sd => do
      let c ← compileSpec vc
      onthParseAttrLabelsGo rest (ainsert sd l c)

/-- The variant's inline `attributes` loop. -/
def onthSourceAttrs (st : OnthState) (srcName : String) :
    List (String × Value) → List (String × SEntry) →
    Except CompileErr (OnthState × List (String × SEntry))
  | [], sd => .ok (st, sd)
  | (l, vc) :: rest, sd => do
    let c ← compileSpec vc
    onthSourceAttrs (onthAddAttrToNode st srcName l) srcName rest
      (ainsert sd l (.attr c))

/-- The variant's inline loop over one class body. -/
def onthBodyLoop (st : OnthState) (srcName : String) :
    List (String × Value) → List (String × SEntry) →
    Except CompileErr (OnthState × List (String × SEntry))
  | [], sd => .ok (st, sd)
  | (l, v) :: rest, sd =>
    match v with
    | .vnull => .error .noChildren
    | _ =>
      if l == "attributes" then
        match v with
        | .vdict items => do
          let r ← onthSourceAttrs st srcName items sd
          onthBodyLoop r.1 srcName rest r.2
        | _ => .error .notAMapping
      else
        match v with
        | .vdict dests =>
          if dests.length > 1 then .error .tooManyDestinations
          else
            match dests with
            | [] => .error .missingDestination
            | (destLabel, attrLabels) :: _ => do
              let r ← onthParseAttrLabels attrLabels
              let st := onthRegisterNode st destLabel
              let st := onthAddEdge st ⟨srcName, destLabel, l, r.1⟩
              onthBodyLoop st srcName rest (ainsert sd l (.edge r.2))
        | _ => .error .notAMapping

/-- The variant's loop over top-level classes: the source class is registered
before the null-body check, so a null-bodied class is registered and then
skipped. -/
def onthClassLoop (st : OnthState) :
    List (String × Value) → ISchema → Except CompileErr (OnthState × ISchema)
  | [], osd => .ok (st, osd)
  | (srcLabel, body) :: rest, osd =>
    let st := onthRegisterNode st srcLabel
    match body with
    | .vnull => onthClassLoop st rest osd
    | .vdict items => do
      let r ← onthBodyLoop st srcLabel items []
      onthClassLoop r.1 rest (ainsert osd srcLabel r.2)
    | _ => .error .notAMapping

/-- The compiled variant meta-model. -/
structure Onthology where
  metaNodes : List (String × MetaNode)
  metaEdges : List (String × List (String × OnthMetaEdge))
  ischema : ISchema

/-- `Onthology.load_onthology_from_yaml` minus the file reading. -/
def load_onthology (doc : Value) : Except CompileErr Onthology :=
  if checkMetaDoc doc then
    match doc with
    | .vdict entries => do
      let r ← onthClassLoop ⟨[], []⟩ entries []
      .ok ⟨r.1.metaNodes, r.1.metaEdges, r.2⟩
    | _ => .error .metaSchemaViolation
  else .error .metaSchemaViolation

/-! ## The instance loader (`Topology`, src/ontology.py)

`Node.id()` is inherited from `AbstractNode` and returns the instance name, so
`Topology.instances` is keyed by name alone; the class does not take part in
the identity.  Edges hold `Node` object references; a node object is the
registry entry of its name (destinations) or the source object under
construction, so we record the names. -/

/-- An instance edge.  `source` and `destination` are `Node` references in the
code; we record their ids (the names).  `attribute_values` is whatever value
the document supplied for the destination (the constructor replaces `None`
with an empty mapping). -/
structure Edge where
  sourceName : String
  destName : String
  label : String
  attributeValues : Value

/-- An instance node.  `cls` is a `MetaNode` reference; its observable
identity is `id()`, the class name, which is what we record.
`outgoing_edges` is a Python set of freshly constructed (hence distinct)
`Edge` objects; we record insertion order. -/
structure Node where
  clsName : String
  name : String
  attributeValues : List (String × Value)
  outgoingEdges : List Edge

/-- The `Edge` constructor's `if attribute_values is None: dict()`. -/
def orEmptyDict (v : Value) : Value :=
  match v with
  | .vnull => .vdict []
  | v => v

/-- The instance graph: `Topology.instances`, keyed by `Node.id()` = name. -/
structure Topology where
  instances : List (String × Node)

/-- Errors a `load_topology` call can raise: the `SchemaError` from the
derived validator, the `AttributeError` of calling `.items()` on a
non-mapping (in particular on `None`), the `KeyError` of `meta_nodes[...]`,
and the `AssertionError` of `Topology.add_instance`. -/
inductive LoadErr where
  | schemaViolation
  | attributeError
  | keyError
  | duplicateInstance
deriving DecidableEq

/-- `Topology.add_instance`: assert the id (the name) is not yet registered,
then register; the assertion fires before any mutation. -/
def add_instance (top : Topology) (n : Node) : Except LoadErr Topology :=
  if (akeys top.instances).contains n.name then .error .duplicateInstance
  else .ok ⟨top.instances ++ [(n.name, n)]⟩

/-- `Topology.get_instance`: build a fresh `Node(cls, name)`; if its id (the
name) is registered, return the registered object — whatever its class —
otherwise register and return the fresh one. -/
def get_instance (top : Topology) (cls : MetaNode) (name : String) :
    Topology × Node :=
  match alookup top.instances name with
  | some n => (top, n)
  | none =>
    let n : Node := ⟨cls.name, name, [], []⟩
    (⟨top.instances ++ [(name, n)]⟩, n)

/-- The destination loop of `Ontology._create_topology_for_known_source`:
get-or-create each destination, construct the `Edge`, and add it to the
source's `outgoing_edges`. -/
def createDestinations (top : Topology) (destCls : MetaNode) (src : Node)
    (label : String) : List (String × Value) → Topology × Node
  | [] => (top, src)
  | (destName, attrs) :: rest =>
    let r := get_instance top destCls destName
    let e : Edge := ⟨src.name, destName, label, orEmptyDict attrs⟩
    createDestinations r.1 destCls
      { src with outgoingEdges := src.outgoingEdges ++ [e] } label rest

/-- `Ontology._create_topology_for_known_source`: resolve the destination
class (`meta_nodes[...]`, a `KeyError` if absent) and iterate the
destination mapping (`.items()` on a non-mapping raises). -/
def createTopologyForKnownSource (ont : Ontology) (top : Topology)
    (destClassId : String) (destsVal : Value) (src : Node) (label : String) :
    Except LoadErr (Topology × Node) :=
  match alookup ont.metaNodes destClassId with
  | none => .error .keyError
  | some destCls =>
    match destsVal with
    | .vdict dests => .ok (createDestinations top destCls src label dests)
    | _ => .error .attributeError

/-- The attribute loop of `Ontology._load_topology_for_given_source_class`:
a key with a `MetaEdge` declared on this class creates edges, any other key is
stored as a plain attribute value. -/
def loadInstanceAttrs (ont : Ontology) (top : Topology) (srcClassId : String)
    (src : Node) : List (String × Value) → Except LoadErr (Topology × Node)
  | [] => .ok (top, src)
  | (label, v) :: rest =>
    match getEdge ont srcClassId label with
    | none =>
      loadInstanceAttrs ont top srcClassId
        { src with attributeValues := ainsert src.attributeValues label v } rest
    | some e => do
      let r ← createTopologyForKnownSource ont top e.destinationId v src label
      loadInstanceAttrs ont r.1 srcClassId r.2 rest

/-- The instance loop of `Ontology._load_topology_for_given_source_class`:
each top-level instance gets a fresh `Node` (not get-or-create), its
attributes are processed, and it is registered through `add_instance` — whose
assertion fails if the name is already registered. -/
def loadInstances (ont : Ontology) (top : Topology) (srcClassId : String)
    (srcCls : MetaNode) : List (String × Value) → Except LoadErr Topology
  | [] => .ok top
  | (name, attrsVal) :: rest =>
    match attrsVal with
    | .vdict attrs => do
      let r ← loadInstanceAttrs ont top srcClassId ⟨srcCls.name, name, [], []⟩ attrs
      let top' ← add_instance r.1 r.2
      loadInstances ont top' srcClassId srcCls rest
    | _ => .error .attributeError

/-- The class loop of `Ontology.load_topology`: `meta_nodes[source_class_id]`
raises `KeyError` if absent; iterating a non-mapping raises. -/
def loadClasses (ont : Ontology) (top : Topology) :
    List (String × Value) → Except LoadErr Topology
  | [] => .ok top
  | (classId, instsVal) :: rest =>
    match alookup ont.metaNodes classId with
    | none => .error .keyError
    | some srcCls =>
      match instsVal with
      | .vdict insts => do
        let top' ← loadInstances ont top classId srcCls insts
        loadClasses ont top' rest
      | _ => .error .attributeError

/-- `Ontology.load_topology` minus the file reading: validate the parsed
document against the derived validator, then walk it.  A `None` document
passes validation but `None.items()` then raises `AttributeError`. -/
def load_topology (ont : Ontology) (doc : Value) : Except LoadErr Topology :=
  if checkInstanceTop ont.ischema doc then
    match doc with
    | .vdict entries => loadClasses ont ⟨[]⟩ entries
    | _ => .error .attributeError
  else .error .schemaViolation

/-- Whether an `Except` computation returned a value. -/
def isOkExcept {ε α : Type} : Except ε α → Bool
  | .ok _ => true
  | .error _ => false

/-! ## Specification-side views of a document

These definitions read a document the way the spec's sentences do — as the
multiset of instance names and identity pairs it mentions — in the exact order
the loader encounters them. -/

/-- An instance-name occurrence the loader registers: the destination of an
edge entry (registered get-or-create when its edge is processed), or a
top-level entry (registered fresh through `add_instance` after its attributes
are processed). -/
inductive OccEv where
  | dest (name : String)
  | top (name : String)

/-- The destination names an instance's attribute mapping mentions, in
processing order: for each key that resolves to a `MetaEdge` of the class,
the keys of its destination mapping. -/
def instDestNames (ont : Ontology) (classId : String)
    (attrs : List (String × Value)) : List String :=
  attrs.flatMap (fun p =>
    match getEdge ont classId p.1, p.2 with
    | some _, .vdict dests => akeys dests
    | _, _ => [])

/-- The name occurrences of one class entry's instance list, in loader
order: per instance, first the edge destinations, then the instance's own
top-level name. -/
def instEvents (ont : Ontology) (classId : String)
    (insts : List (String × Value)) : List OccEv :=
  insts.flatMap (fun q =>
    match q.2 with
    | .vdict attrs =>
      (instDestNames ont classId attrs).map OccEv.dest ++ [.top q.1]
    | _ => [])

/-- All name occurrences of an instance document in loader order. -/
def occEvents (ont : Ontology) (doc : Value) : List OccEv :=
  match doc with
  | .vdict entries =>
    entries.flatMap (fun p =>
      match p.2 with
      | .vdict insts => instEvents ont p.1 insts
      | _ => [])
  | _ => []

/-- The name carried by an occurrence. -/
def occName : OccEv → String
  | .dest n => n
  | .top n => n

/-- Append a name unless it is already present (first occurrence wins). -/
def addNameIfAbsent (ks : List String) (n : String) : List String :=
  if ks.contains n then ks else ks ++ [n]

/-- Replay of the registry-key evolution over the occurrence events: a
destination occurrence is get-or-create, a top-level occurrence must be fresh
(`add_instance` asserts) — `none` marks the run that dies on the assertion. -/
def keysGo : List OccEv → List String → Option (List String)
  | [], ks => some ks
  | .dest n :: rest, ks => keysGo rest (addNameIfAbsent ks n)
  | .top n :: rest, ks =>
    if ks.contains n then none else keysGo rest (ks ++ [n])

/-- The distinct instance names a document mentions — as top-level entries or
as edge destinations — in first-occurrence order. -/
def collectNames (ont : Ontology) (doc : Value) : List String :=
  ((occEvents ont doc).map occName).foldl addNameIfAbsent []

/-- Keep the first occurrence of each element. -/
def firstDedup {α : Type} [BEq α] (l : List α) : List α :=
  l.foldl (fun acc a => if acc.contains a then acc else acc ++ [a]) []

/-- Follows the spec's words, not the code: the distinct `(class, name)`
identity pairs occurring in an instance document either as top-level entries
or as edge destinations, the class of a destination being the edge's declared
destination class.  Stated for comparison with the registry the loader
actually builds. -/
def claimedIdentityPairs (ont : Ontology) (doc : Value) :
    List (String × String) :=
  match doc with
  | .vdict entries =>
    firstDedup
      (entries.flatMap (fun p =>
        match p.2 with
        | .vdict insts =>
          insts.flatMap (fun q =>
            (match q.2 with
            | .vdict attrs =>
              attrs.flatMap (fun a =>
                match getEdge ont p.1 a.1, a.2 with
                | some e, .vdict dests =>
                  dests.map (fun dd => (e.destinationId, dd.1))
                | _, _ => [])
            | _ => []) ++ [(p.1, q.1)])
        | _ => []))
  | _ => []

/-- The edge declarations of one class body, in document order: (source
class, edge label, destination class), the destination being the first key of
the destination mapping — what `next(iter(...))` selects. -/
def bodyEdgeDecls (c : String) (body : List (String × Value)) :
    List (String × String × String) :=
  body.flatMap (fun q =>
    if q.1 == "attributes" then []
    else
      match q.2 with
      | .vdict ((d, _) :: _) => [(c, q.1, d)]
      | _ => [])

/-- The edge declarations of a list of top-level class entries. -/
def docEdgeDecls (entries : List (String × Value)) :
    List (String × String × String) :=
  entries.flatMap (fun p =>
    match p.2 with
    | .vdict body => bodyEdgeDecls p.1 body
    | _ => [])

/-- The edge declarations of a meta-document in document order. -/
def edgeDecls (doc : Value) : List (String × String × String) :=
  match doc with
  | .vdict entries => docEdgeDecls entries
  | _ => []

/-- Fold a declaration list over an accumulator, keeping the destination of
the latest declaration for the given (source class, label) pair. -/
def lastEdgeDestFrom (decls : List (String × String × String))
    (src label : String) (acc : Option String) : Option String :=
  decls.foldl
    (fun acc d => if d.1 == src && d.2.1 == label then some d.2.2 else acc) acc

/-- The destination class of the last declaration for a given (source class,
label) pair, if the pair is declared at all. -/
def lastEdgeDest (decls : List (String × String × String))
    (src label : String) : Option String :=
  lastEdgeDestFrom decls src label none

/-- Well-formedness of the compiled edge registry: outer keys (source class
ids) and each inner key list (labels) are duplicate-free, so each (source
class, label) pair holds exactly one `MetaEdge`. -/
def edgeKeysNodup (ont : Ontology) : Prop :=
  (akeys ont.metaEdges).Nodup ∧ ∀ p ∈ ont.metaEdges, (akeys p.2).Nodup

/-- The destination-class id the edge registry records for a (source class,
label) pair — the projection of `get_edge_by_source_and_label` the claims
reason about, stated on the raw registry map. -/
def edgesDest (m : List (String × List (String × MetaEdge)))
    (src label : String) : Option String :=
  (alookup ((alookup m src).getD []) label).map MetaEdge.destinationId

/-- Key-uniqueness of an edge registry map, outer and inner. -/
def edgesMapNodup (m : List (String × List (String × MetaEdge))) : Prop :=
  (akeys m).Nodup ∧ ∀ p ∈ m, (akeys p.2).Nodup

/-! ## Concrete documents and compiled results used in the theorems -/

/-- The round-trip meta-document of the spec, with the spec's literal type
token `"integer"`. -/
def metaHostInteger : Value := .vdict [("Host", .vdict [
  ("attributes", .vdict [("cpu", .vstr "integer")]),
  ("runs", .vdict [("Service", .vdict [("port", .vstr "integer")])])])]

/-- The round-trip meta-document with the Python type name `"int"`, which
`eval` can resolve. -/
def metaHostInt : Value := .vdict [("Host", .vdict [
  ("attributes", .vdict [("cpu", .vstr "int")]),
  ("runs", .vdict [("Service", .vdict [("port", .vstr "int")])])])]

/-- The round-trip instance document
`{Host: {h1: {cpu: 4, runs: {svc1: {port: 80}}}}}`. -/
def instHostDoc : Value := .vdict [("Host", .vdict [("h1", .vdict [
  ("cpu", .vint 4),
  ("runs", .vdict [("svc1", .vdict [("port", .vint 80)])])])])]

/-- The instance graph the round trip produces: the forward-created
destination `svc1` is registered first, then `h1` with its attribute and its
one `runs` edge. -/
def topoHost : Topology := ⟨[
  ("svc1", ⟨"Service", "svc1", [], []⟩),
  ("h1", ⟨"Host", "h1", [("cpu", .vint 4)],
    [⟨"h1", "svc1", "runs", .vdict [("port", .vint 80)]⟩]⟩)]⟩

/-- A meta-document whose class `A` has two edges with destination classes
`B` and `C`. -/
def metaMerge : Value := .vdict [("A", .vdict [
  ("e", .vdict [("B", .vnull)]),
  ("f", .vdict [("C", .vnull)])])]

/-- An instance document referencing both `(B, x)` (through `e`) and `(C, x)`
(through `f`): two identities with different classes and the same name. -/
def docMerge : Value := .vdict [("A", .vdict [("a1", .vdict [
  ("e", .vdict [("x", .vnull)]),
  ("f", .vdict [("x", .vnull)])])])]

/-- A meta-document declaring classes `A` (with an edge `e` to `B`) and `B`. -/
def metaFwd : Value := .vdict [
  ("A", .vdict [("e", .vdict [("B", .vnull)])]),
  ("B", .vdict [])]

/-- An instance document in which `b1` first occurs as the destination of an
edge and later as its own top-level entry under `B`. -/
def docFwd : Value := .vdict [
  ("A", .vdict [("a1", .vdict [("e", .vdict [("b1", .vnull)])])]),
  ("B", .vdict [("b1", .vdict [])])]

/-- The result of compiling `metaFwd` (written out for use as a concrete
`Ontology` value). -/
def ontAB : Ontology := ⟨
  [("A", ⟨"A", []⟩), ("B", ⟨"B", []⟩)],
  [("A", [("e", ⟨"A", "B", "e", none⟩)])],
  [("A", [("e", .edge [])]), ("B", [])]⟩

/-- A one-instance document with a single forward-created destination `y`. -/
def docOneEdge : Value :=
  .vdict [("A", .vdict [("x", .vdict [("e", .vdict [("y", .vnull)])])])]

/-- The graph loading `docOneEdge` against `ontAB` produces. -/
def topOneEdge : Topology := ⟨[
  ("y", ⟨"B", "y", [], []⟩),
  ("x", ⟨"A", "x", [], [⟨"x", "y", "e", .vdict []⟩]⟩)]⟩

/-- An instance document for `ontAB` in which `y` first occurs as an edge
destination and later as a top-level entry of class `B`. -/
def docFwdW : Value := .vdict [
  ("A", .vdict [("x", .vdict [("e", .vdict [("y", .vnull)])])]),
  ("B", .vdict [("y", .vdict [])])]

/-- A minimal meta-document: one class with an empty body. -/
def metaSingleA : Value := .vdict [("A", .vdict [])]

/-- The result of compiling `metaSingleA`. -/
def ontSingleA : Ontology := ⟨[("A", ⟨"A", []⟩)], [], [("A", [])]⟩

/-- A meta-document with an attribute whose validator spec is `null`. -/
def metaNullSpec : Value :=
  .vdict [("A", .vdict [("attributes", .vdict [("a", .vnull)])])]

/-- A meta-document whose only edge destination class `B` is never declared
as its own top-level entry. -/
def metaUndeclaredDest : Value :=
  .vdict [("A", .vdict [("e", .vdict [("B", .vnull)])])]

/-- The result of compiling `metaUndeclaredDest`: `B` is implicitly created
with an empty attribute set and the edge is registered. -/
def ontUndeclaredDest : Ontology := ⟨
  [("A", ⟨"A", []⟩), ("B", ⟨"B", []⟩)],
  [("A", [("e", ⟨"A", "B", "e", none⟩)])],
  [("A", [("e", .edge [])])]⟩

/-- A meta-document (as the parsed key-value sequence the core consumes)
declaring the pair `(A, e)` twice, first with destination `B`, then with
destination `C`. -/
def metaTwice : Value := .vdict [
  ("A", .vdict [("e", .vdict [("B", .vnull)])]),
  ("A", .vdict [("e", .vdict [("C", .vnull)])])]

/-- The result of compiling `metaTwice`: the later declaration silently
overwrote the earlier one. -/
def ontTwice : Ontology := ⟨
  [("A", ⟨"A", []⟩), ("B", ⟨"B", []⟩), ("C", ⟨"C", []⟩)],
  [("A", [("e", ⟨"A", "C", "e", none⟩)])],
  [("A", [("e", .edge [])])]⟩

/-- A meta-document with a null-bodied class `A` and an empty-bodied class
`B`. -/
def metaNullBody : Value := .vdict [("A", .vnull), ("B", .vdict [])]

/-- Compiling `metaNullBody` with `Ontology` (src/ontology.py): `A` is
skipped before `get_node`, so it is not registered. -/
def ontNullBody : Ontology := ⟨[("B", ⟨"B", []⟩)], [], [("B", [])]⟩

/-- Compiling `metaNullBody` with `Onthology` (src/onthology.py): `get_node`
runs before the null-body check, so `A` is registered. -/
def onthNullBody : Onthology :=
  ⟨[("A", ⟨"A", []⟩), ("B", ⟨"B", []⟩)], [], [("B", [])]⟩

/-! ## Helper lemmas on the mapping operations -/

theorem alookup_ainsert_self {α : Type} (m : List (String × α)) (k : String)
    (v : α) : alookup (ainsert m k v) k = some v := by
  induction m with
  | nil => simp [ainsert, alookup]
  | cons p rest ih =>
    obtain ⟨k₁, v₁⟩ := p
    by_cases h : k₁ = k
    · subst h
      simp [ainsert, alookup]
    · simp [ainsert, alookup, beq_eq_false_iff_ne.mpr h, ih]

theorem alookup_ainsert_ne {α : Type} (m : List (String × α)) (k k' : String)
    (v : α) (h : k' ≠ k) : alookup (ainsert m k v) k' = alookup m k' := by
  induction m with
  | nil => simp [ainsert, alookup, beq_eq_false_iff_ne.mpr (Ne.symm h)]
  | cons p rest ih =>
    obtain ⟨k₁, v₁⟩ := p
    by_cases h1 : k₁ = k
    · subst h1
      simp [ainsert, alookup, beq_eq_false_iff_ne.mpr (fun e => h e.symm)]
    · simp only [ainsert, beq_eq_false_iff_ne.mpr h1, if_false]
      by_cases h2 : k₁ = k'
      · subst h2
        simp [alookup]
      · simp [alookup, beq_eq_false_iff_ne.mpr h2, ih]

theorem akeys_ainsert {α : Type} (m : List (String × α)) (k : String)
    (v : α) :
    akeys (ainsert m k v) = if k ∈ akeys m then akeys m else akeys m ++ [k] := by
  induction m with
  | nil => simp [ainsert, akeys]
  | cons p rest ih =>
    obtain ⟨k₁, v₁⟩ := p
    by_cases h : k₁ = k
    · subst h
      simp [ainsert, akeys]
    · simp only [ainsert, akeys, List.map_cons] at ih ⊢
      simp only [beq_eq_false_iff_ne.mpr h, Bool.false_eq_true, if_false,
        List.map_cons]
      rw [ih]
      by_cases h2 : k ∈ List.map Prod.fst rest
      · rw [if_pos h2, if_pos (List.mem_cons_of_mem _ h2)]
      · rw [if_neg h2, if_neg ?_]
        · simp
        · intro hmem
          rcases List.mem_cons.mp hmem with e | e
          · exact h e.symm
          · exact h2 e

theorem akeys_ainsert_nodup {α : Type} (m : List (String × α)) (k : String)
    (v : α) (h : (akeys m).Nodup) : (akeys (ainsert m k v)).Nodup := by
  rw [akeys_ainsert]
  split
  · exact h
  · next hmem =>
    simp [List.nodup_append, h, hmem]

theorem mem_ainsert {α : Type} {m : List (String × α)} {k : String} {v : α}
    {p : String × α} (h : p ∈ ainsert m k v) : p ∈ m ∨ p = (k, v) := by
  induction m with
  | nil =>
    simp [ainsert] at h
    exact Or.inr h
  | cons q rest ih =>
    obtain ⟨k₁, v₁⟩ := q
    by_cases h1 : k₁ = k
    · subst h1
      simp only [ainsert, beq_self_eq_true, if_true] at h
      rcases List.mem_cons.mp h with h | h
      · exact Or.inr h
      · exact Or.inl (List.mem_cons_of_mem _ h)
    · simp only [ainsert, beq_eq_false_iff_ne.mpr h1, if_false] at h
      rcases List.mem_cons.mp h with h | h
      · exact Or.inl (h ▸ List.mem_cons_self _ _)
      · rcases ih h with h | h
        · exact Or.inl (List.mem_cons_of_mem _ h)
        · exact Or.inr h

theorem alookup_mem {α : Type} {m : List (String × α)} {k : String} {v : α}
    (h : alookup m k = some v) : (k, v) ∈ m := by
  induction m with
  | nil => simp [alookup] at h
  | cons p rest ih =>
    obtain ⟨k₁, v₁⟩ := p
    by_cases h1 : k₁ = k
    · subst h1
      simp [alookup] at h
      simp [h]
    · simp only [alookup, beq_eq_false_iff_ne.mpr h1, if_false] at h
      exact List.mem_cons_of_mem _ (ih h)

theorem alookup_eq_none_iff {α : Type} (m : List (String × α)) (k : String) :
    alookup m k = none ↔ k ∉ akeys m := by
  induction m with
  | nil => simp [alookup, akeys]
  | cons p rest ih =>
    obtain ⟨k₁, v₁⟩ := p
    by_cases h1 : k₁ = k
    · subst h1
      simp [alookup, akeys]
    · simp only [alookup, beq_eq_false_iff_ne.mpr h1, Bool.false_eq_true,
        if_false, akeys, List.map_cons, List.mem_cons]
      rw [ih]
      simp only [akeys]
      constructor
      · intro hn
        rintro (e | e)
        · exact h1 e.symm
        · exact hn e
      · intro hn e
        exact hn (Or.inr e)

theorem alookup_isSome_of_mem {α : Type} {m : List (String × α)} {k : String}
    (h : k ∈ akeys m) : ∃ v, alookup m k = some v := by
  cases hl : alookup m k with
  | none => exact absurd h ((alookup_eq_none_iff m k).mp hl)
  | some v => exact ⟨v, rfl⟩

theorem exceptBind_ok {ε α β : Type} {x : Except ε α} {f : α → Except ε β}
    {r : β} (h : (x >>= f) = .ok r) : ∃ a, x = .ok a ∧ f a = .ok r := by
  cases x with
  | error e => simp [Bind.bind, Except.bind] at h
  | ok a => exact ⟨a, rfl, by simpa [Bind.bind, Except.bind] using h⟩

/-! ## Simulation of the compiled edge registry (claim C5) -/

theorem lastEdgeDestFrom_nil (src lbl : String) (acc : Option String) :
    lastEdgeDestFrom [] src lbl acc = acc := rfl

theorem lastEdgeDestFrom_cons (d : String × String × String)
    (ds : List (String × String × String)) (src lbl : String)
    (acc : Option String) :
    lastEdgeDestFrom (d :: ds) src lbl acc =
      lastEdgeDestFrom ds src lbl
        (if d.1 == src && d.2.1 == lbl then some d.2.2 else acc) := rfl

theorem lastEdgeDestFrom_append (xs ys : List (String × String × String))
    (src lbl : String) (acc : Option String) :
    lastEdgeDestFrom (xs ++ ys) src lbl acc =
      lastEdgeDestFrom ys src lbl (lastEdgeDestFrom xs src lbl acc) := by
  simp [lastEdgeDestFrom, List.foldl_append]

theorem registerNode_metaEdges (st : PState) (n : String) :
    (registerNode st n).metaEdges = st.metaEdges := by
  unfold registerNode
  cases alookup st.metaNodes n <;> rfl

theorem addAttrToNode_metaEdges (st : PState) (c a : String) :
    (addAttrToNode st c a).metaEdges = st.metaEdges := by
  unfold addAttrToNode
  cases alookup st.metaNodes c <;> rfl

theorem edgesDest_addEdgeS (st : PState) (e : MetaEdge) (src lbl : String) :
    edgesDest (addEdgeS st e).metaEdges src lbl =
      if e.sourceId == src && e.label == lbl then some e.destinationId
      else edgesDest st.metaEdges src lbl := by
  unfold addEdgeS edgesDest
  by_cases hs : e.sourceId = src
  · subst hs
    rw [alookup_ainsert_self]
    by_cases hl : e.label = lbl
    · subst hl
      rw [Option.getD_some, alookup_ainsert_self]
      simp
    · rw [Option.getD_some, alookup_ainsert_ne _ _ _ _ (fun h => hl h.symm)]
      simp [beq_eq_false_iff_ne.mpr hl]
  · rw [alookup_ainsert_ne _ _ _ _ (fun h => hs h.symm)]
    simp [beq_eq_false_iff_ne.mpr hs]

theorem edgesMapNodup_addEdgeS (st : PState) (e : MetaEdge)
    (hn : edgesMapNodup st.metaEdges) :
    edgesMapNodup (addEdgeS st e).metaEdges := by
  obtain ⟨ho, hi⟩ := hn
  constructor
  · exact akeys_ainsert_nodup _ _ _ ho
  · intro p hp
    rcases mem_ainsert hp with hp | hp
    · exact hi p hp
    · subst hp
      apply akeys_ainsert_nodup
      cases hli : alookup st.metaEdges e.sourceId with
      | none => simp [akeys]
      | some i => exact hi _ (alookup_mem hli)

theorem parseSourceAttributes_metaEdges :
    ∀ (items : List (String × Value)) (st : PState) (c : String)
      (sd : List (String × SEntry)) (r : PState × List (String × SEntry)),
      parseSourceAttributes st c items sd = .ok r →
      r.1.metaEdges = st.metaEdges := by
  intro items
  induction items with
  | nil =>
    intro st c sd r h
    simp only [parseSourceAttributes, Except.ok.injEq] at h
    rw [← h]
  | cons p rest ih =>
    intro st c sd r h
    obtain ⟨l, vc⟩ := p
    simp only [parseSourceAttributes] at h
    obtain ⟨cnd, _, h2⟩ := exceptBind_ok h
    rw [ih _ _ _ _ h2, addAttrToNode_metaEdges]

theorem parseEdges_shape {st : PState} {c l : String} {v : Value}
    {sd : List (String × SEntry)} {r : PState × List (String × SEntry)}
    (h : parseEdges st c l v sd = .ok r) :
    ∃ d av ds, v = .vdict ((d, av) :: ds) := by
  cases v with
  | vdict dests =>
    cases dests with
    | nil => simp [parseEdges] at h
    | cons p ds => exact ⟨p.1, p.2, ds, rfl⟩
  | vnull => simp [parseEdges] at h
  | vbool b => simp [parseEdges] at h
  | vint n => simp [parseEdges] at h
  | vstr s => simp [parseEdges] at h
  | vlist xs => simp [parseEdges] at h

theorem parseEdges_effect {st : PState} {c l d : String} {av : Value}
    {ds : List (String × Value)} {sd : List (String × SEntry)}
    {r : PState × List (String × SEntry)}
    (h : parseEdges st c l (.vdict ((d, av) :: ds)) sd = .ok r) :
    (∀ src lbl, edgesDest r.1.metaEdges src lbl =
      if c == src && l == lbl then some d
      else edgesDest st.metaEdges src lbl) ∧
    (edgesMapNodup st.metaEdges → edgesMapNodup r.1.metaEdges) := by
  simp only [parseEdges] at h
  by_cases hlen : ((d, av) :: ds).length > 1
  · rw [if_pos hlen] at h
    simp at h
  · rw [if_neg hlen] at h
    obtain ⟨pr, _, h2⟩ := exceptBind_ok h
    simp only [Except.ok.injEq] at h2
    rw [← h2]
    constructor
    · intro src lbl
      rw [edgesDest_addEdgeS]
      simp only [registerNode_metaEdges]
    · intro hn
      apply edgesMapNodup_addEdgeS
      rw [registerNode_metaEdges]
      exact hn

theorem bodyEdgeDecls_cons (c : String) (q : String × Value)
    (rest : List (String × Value)) :
    bodyEdgeDecls c (q :: rest) =
      (if q.1 == "attributes" then []
       else
        match q.2 with
        | .vdict ((d, _) :: _) => [(c, q.1, d)]
        | _ => []) ++ bodyEdgeDecls c rest := by
  simp [bodyEdgeDecls]

theorem docEdgeDecls_cons (p : String × Value)
    (rest : List (String × Value)) :
    docEdgeDecls (p :: rest) =
      (match p.2 with
       | .vdict body => bodyEdgeDecls p.1 body
       | _ => []) ++ docEdgeDecls rest := by
  simp [docEdgeDecls, bodyEdgeDecls]

theorem parseSourceBody_edges :
    ∀ (body : List (String × Value)) (st : PState) (c : String)
      (sd : List (String × SEntry)) (r : PState × List (String × SEntry)),
      parseSourceBody st c body sd = .ok r →
      (∀ src lbl, edgesDest r.1.metaEdges src lbl =
        lastEdgeDestFrom (bodyEdgeDecls c body) src lbl
          (edgesDest st.metaEdges src lbl)) ∧
      (edgesMapNodup st.metaEdges → edgesMapNodup r.1.metaEdges) := by
  intro body
  induction body with
  | nil =>
    intro st c sd r h
    simp only [parseSourceBody, Except.ok.injEq] at h
    rw [← h]
    exact ⟨fun src lbl => rfl, fun hn => hn⟩
  | cons p rest ih =>
    intro st c sd r h
    obtain ⟨l, v⟩ := p
    by_cases hl : l = "attributes"
    · subst hl
      cases v with
      | vnull => simp [parseSourceBody] at h
      | vdict items =>
        simp only [parseSourceBody, beq_self_eq_true, if_true] at h
        obtain ⟨r₂, h1, h2⟩ := exceptBind_ok h
        obtain ⟨ihe, ihn⟩ := ih r₂.1 c r₂.2 r h2
        have hme := parseSourceAttributes_metaEdges items st c sd r₂ h1
        constructor
        · intro src lbl
          rw [ihe src lbl, hme, bodyEdgeDecls_cons]
          simp
        · intro hn
          apply ihn
          rw [hme]
          exact hn
      | vbool b => simp [parseSourceBody] at h
      | vint n => simp [parseSourceBody] at h
      | vstr s => simp [parseSourceBody] at h
      | vlist xs => simp [parseSourceBody] at h
    · have hlb : (l == "attributes") = false := beq_eq_false_iff_ne.mpr hl
      cases v with
      | vnull => simp [parseSourceBody] at h
      | vdict dests =>
        simp only [parseSourceBody, hlb, Bool.false_eq_true, if_false] at h
        obtain ⟨r₂, h1, h2⟩ := exceptBind_ok h
        obtain ⟨d, av, ds, hv⟩ := parseEdges_shape h1
        cases hv
        obtain ⟨he, hn1⟩ := parseEdges_effect h1
        obtain ⟨ihe, ihn⟩ := ih r₂.1 c r₂.2 r h2
        constructor
        · intro src lbl
          rw [ihe src lbl, he src lbl, bodyEdgeDecls_cons]
          simp only [hlb, Bool.false_eq_true, if_false]
          rw [List.singleton_append, lastEdgeDestFrom_cons]
        · intro hn
          exact ihn (hn1 hn)
      | vbool b =>
        simp only [parseSourceBody, hlb, Bool.false_eq_true, if_false] at h
        obtain ⟨r₂, h1, _⟩ := exceptBind_ok h
        simp [parseEdges] at h1
      | vint n =>
        simp only [parseSourceBody, hlb, Bool.false_eq_true, if_false] at h
        obtain ⟨r₂, h1, _⟩ := exceptBind_ok h
        simp [parseEdges] at h1
      | vstr s =>
        simp only [parseSourceBody, hlb, Bool.false_eq_true, if_false] at h
        obtain ⟨r₂, h1, _⟩ := exceptBind_ok h
        simp [parseEdges] at h1
      | vlist xs =>
        simp only [parseSourceBody, hlb, Bool.false_eq_true, if_false] at h
        obtain ⟨r₂, h1, _⟩ := exceptBind_ok h
        simp [parseEdges] at h1

theorem parseOntologySchema_edges :
    ∀ (entries : List (String × Value)) (st : PState) (osd : ISchema)
      (r : PState × ISchema),
      parseOntologySchema st entries osd = .ok r →
      (∀ src lbl, edgesDest r.1.metaEdges src lbl =
        lastEdgeDestFrom (docEdgeDecls entries) src lbl
          (edgesDest st.metaEdges src lbl)) ∧
      (edgesMapNodup st.metaEdges → edgesMapNodup r.1.metaEdges) := by
  intro entries
  induction entries with
  | nil =>
    intro st osd r h
    simp only [parseOntologySchema, Except.ok.injEq] at h
    rw [← h]
    exact ⟨fun src lbl => rfl, fun hn => hn⟩
  | cons p rest ih =>
    intro st osd r h
    obtain ⟨c, b⟩ := p
    cases b with
    | vnull =>
      simp only [parseOntologySchema] at h
      obtain ⟨ihe, ihn⟩ := ih st osd r h
      constructor
      · intro src lbl
        rw [ihe src lbl, docEdgeDecls_cons]
        simp
      · exact ihn
    | vdict items =>
      simp only [parseOntologySchema] at h
      obtain ⟨r₂, h1, h2⟩ := exceptBind_ok h
      have h1' : parseSourceBody (registerNode st c) c items [] = .ok r₂ := h1
      obtain ⟨he, hn1⟩ :=
        parseSourceBody_edges items (registerNode st c) c [] r₂ h1'
      obtain ⟨ihe, ihn⟩ := ih r₂.1 (ainsert osd c r₂.2) r h2
      constructor
      · intro src lbl
        rw [ihe src lbl, he src lbl, registerNode_metaEdges,
          docEdgeDecls_cons, lastEdgeDestFrom_append]
      · intro hn
        apply ihn
        apply hn1
        rw [registerNode_metaEdges]
        exact hn
    | vbool b => simp [parseOntologySchema] at h
    | vint n => simp [parseOntologySchema] at h
    | vstr s => simp [parseOntologySchema] at h
    | vlist xs => simp [parseOntologySchema] at h

/-! ## Claim C5 — one `MetaEdge` per (source class, label), last write wins -/

/-- C5: after any successful compile the edge registry holds exactly one
`MetaEdge` per (source class, label) pair — its key lists are duplicate-free —
and the destination recorded for a pair is that of the *last* declaration of
that pair in the meta-document, so a repeated declaration silently overwrites
the earlier one rather than failing. -/
theorem c5_one_edge_per_pair_last_wins (doc : Value) (ont : Ontology)
    (src lbl : String) (h : load_ontology doc = .ok ont) :
    (getEdge ont src lbl).map MetaEdge.destinationId =
      lastEdgeDest (edgeDecls doc) src lbl ∧ edgeKeysNodup ont := by
  unfold load_ontology at h
  by_cases hchk : checkMetaDoc doc = true
  · rw [if_pos hchk] at h
    cases doc with
    | vdict entries =>
      obtain ⟨r, h1, h2⟩ := exceptBind_ok h
      simp only [Except.ok.injEq] at h2
      obtain ⟨he, hn⟩ := parseOntologySchema_edges entries ⟨[], []⟩ [] r h1
      rw [← h2]
      constructor
      · exact he src lbl
      · exact hn ⟨List.nodup_nil, by simp⟩
    | vnull => simp at h
    | vbool b => simp at h
    | vint n => simp at h
    | vstr s => simp at h
    | vlist xs => simp at h
  · rw [if_neg hchk] at h
    simp at h

/-- Witness for C5 at `metaTwice`, which declares `(A, e)` twice: exactly one
edge is recorded and its destination is that of the last declaration, `C`. -/
theorem c5_witness :
    load_ontology metaTwice = .ok ontTwice ∧
    lastEdgeDest (edgeDecls metaTwice) "A" "e" = some "C" ∧
    ((getEdge ontTwice "A" "e").map MetaEdge.destinationId =
        lastEdgeDest (edgeDecls metaTwice) "A" "e" ∧ edgeKeysNodup ontTwice) :=
  ⟨rfl, rfl, c5_one_edge_per_pair_last_wins metaTwice ontTwice "A" "e" rfl⟩

/-! ## Simulation of the class registry (claims C7 and C8) -/

theorem alookup_append {α : Type} (m m' : List (String × α)) (k : String) :
    alookup (m ++ m') k =
      match alookup m k with
      | some v => some v
      | none => alookup m' k := by
  induction m with
  | nil => simp [alookup]
  | cons p rest ih =>
    obtain ⟨k₁, v₁⟩ := p
    by_cases h : k₁ = k
    · subst h
      simp [alookup]
    · simp [alookup, beq_eq_false_iff_ne.mpr h, ih]

theorem addEdgeS_metaNodes (st : PState) (e : MetaEdge) :
    (addEdgeS st e).metaNodes = st.metaNodes := rfl

theorem registerNode_mem_mono {st : PState} {n s : String}
    (h : s ∈ akeys st.metaNodes) : s ∈ akeys (registerNode st n).metaNodes := by
  unfold registerNode
  cases alookup st.metaNodes n with
  | some v => exact h
  | none =>
    simp only [akeys, List.map_append, List.mem_append]
    exact Or.inl h

theorem registerNode_self_mem (st : PState) (n : String) :
    n ∈ akeys (registerNode st n).metaNodes := by
  unfold registerNode
  cases hl : alookup st.metaNodes n with
  | some v =>
    exact List.mem_map.mpr ⟨(n, v), alookup_mem hl, rfl⟩
  | none =>
    simp [akeys]

theorem akeys_addAttrToNode (st : PState) (c a : String) :
    akeys (addAttrToNode st c a).metaNodes = akeys st.metaNodes := by
  unfold addAttrToNode
  cases hl : alookup st.metaNodes c with
  | none => rfl
  | some n =>
    simp only
    have hmem : c ∈ akeys st.metaNodes :=
      List.mem_map.mpr ⟨(c, n), alookup_mem hl, rfl⟩
    rw [akeys_ainsert, if_pos hmem]

theorem parseSourceAttributes_akeys :
    ∀ (items : List (String × Value)) (st : PState) (c : String)
      (sd : List (String × SEntry)) (r : PState × List (String × SEntry)),
      parseSourceAttributes st c items sd = .ok r →
      akeys r.1.metaNodes = akeys st.metaNodes := by
  intro items
  induction items with
  | nil =>
    intro st c sd r h
    simp only [parseSourceAttributes, Except.ok.injEq] at h
    rw [← h]
  | cons p rest ih =>
    intro st c sd r h
    obtain ⟨l, vc⟩ := p
    simp only [parseSourceAttributes] at h
    obtain ⟨cnd, _, h2⟩ := exceptBind_ok h
    rw [ih _ _ _ _ h2, akeys_addAttrToNode]

theorem parseEdges_mem_mono {st : PState} {c l : String} {v : Value}
    {sd : List (String × SEntry)} {r : PState × List (String × SEntry)}
    (h : parseEdges st c l v sd = .ok r) {s : String}
    (hs : s ∈ akeys st.metaNodes) : s ∈ akeys r.1.metaNodes := by
  obtain ⟨d, av, ds, hv⟩ := parseEdges_shape h
  cases hv
  simp only [parseEdges] at h
  split at h
  · simp at h
  · obtain ⟨pr, _, h2⟩ := exceptBind_ok h
    simp only [Except.ok.injEq] at h2
    rw [← h2]
    exact registerNode_mem_mono hs

theorem parseEdges_dest_mem {st : PState} {c l d : String} {av : Value}
    {ds : List (String × Value)} {sd : List (String × SEntry)}
    {r : PState × List (String × SEntry)}
    (h : parseEdges st c l (.vdict ((d, av) :: ds)) sd = .ok r) :
    d ∈ akeys r.1.metaNodes := by
  simp only [parseEdges] at h
  split at h
  · simp at h
  · obtain ⟨pr, _, h2⟩ := exceptBind_ok h
    simp only [Except.ok.injEq] at h2
    rw [← h2]
    exact registerNode_self_mem st d

theorem parseSourceBody_mem_mono :
    ∀ (body : List (String × Value)) (st : PState) (c : String)
      (sd : List (String × SEntry)) (r : PState × List (String × SEntry)),
      parseSourceBody st c body sd = .ok r →
      ∀ s, s ∈ akeys st.metaNodes → s ∈ akeys r.1.metaNodes := by
  intro body
  induction body with
  | nil =>
    intro st c sd r h s hs
    simp only [parseSourceBody, Except.ok.injEq] at h
    rw [← h]
    exact hs
  | cons p rest ih =>
    intro st c sd r h s hs
    obtain ⟨l, v⟩ := p
    by_cases hl : l = "attributes"
    · subst hl
      cases v with
      | vnull => simp [parseSourceBody] at h
      | vdict items =>
        simp only [parseSourceBody, beq_self_eq_true, if_true] at h
        obtain ⟨r₂, h1, h2⟩ := exceptBind_ok h
        apply ih r₂.1 c r₂.2 r h2
        rw [parseSourceAttributes_akeys items st c sd r₂ h1]
        exact hs
      | vbool b => simp [parseSourceBody] at h
      | vint n => simp [parseSourceBody] at h
      | vstr s => simp [parseSourceBody] at h
      | vlist xs => simp [parseSourceBody] at h
    · have hlb : (l == "attributes") = false := beq_eq_false_iff_ne.mpr hl
      cases v with
      | vnull => simp [parseSourceBody] at h
      | vdict dests =>
        simp only [parseSourceBody, hlb, Bool.false_eq_true, if_false] at h
        obtain ⟨r₂, h1, h2⟩ := exceptBind_ok h
        exact ih r₂.1 c r₂.2 r h2 s (parseEdges_mem_mono h1 hs)
      | vbool b =>
        simp only [parseSourceBody, hlb, Bool.false_eq_true, if_false] at h
        obtain ⟨r₂, h1, _⟩ := exceptBind_ok h
        simp [parseEdges] at h1
      | vint n =>
        simp only [parseSourceBody, hlb, Bool.false_eq_true, if_false] at h
        obtain ⟨r₂, h1, _⟩ := exceptBind_ok h
        simp [parseEdges] at h1
      | vstr s' =>
        simp only [parseSourceBody, hlb, Bool.false_eq_true, if_false] at h
        obtain ⟨r₂, h1, _⟩ := exceptBind_ok h
        simp [parseEdges] at h1
      | vlist xs =>
        simp only [parseSourceBody, hlb, Bool.false_eq_true, if_false] at h
        obtain ⟨r₂, h1, _⟩ := exceptBind_ok h
        simp [parseEdges] at h1

theorem parseSourceBody_dest_mem :
    ∀ (body : List (String × Value)) (st : PState) (c : String)
      (sd : List (String × SEntry)) (r : PState × List (String × SEntry))
      (l d : String) (av : Value) (ds : List (String × Value)),
      parseSourceBody st c body sd = .ok r →
      (l, Value.vdict ((d, av) :: ds)) ∈ body → l ≠ "attributes" →
      d ∈ akeys r.1.metaNodes := by
  intro body
  induction body with
  | nil =>
    intro st c sd r l d av ds _ hm _
    simp at hm
  | cons p rest ih =>
    intro st c sd r l d av ds h hm hlab
    rcases List.mem_cons.mp hm with he | hm'
    · rw [← he] at h
      have hlb : (l == "attributes") = false := beq_eq_false_iff_ne.mpr hlab
      simp only [parseSourceBody, hlb, Bool.false_eq_true, if_false] at h
      obtain ⟨r₂, h1, h2⟩ := exceptBind_ok h
      exact parseSourceBody_mem_mono rest r₂.1 c r₂.2 r h2 d
        (parseEdges_dest_mem h1)
    · obtain ⟨l₀, v₀⟩ := p
      by_cases hl : l₀ = "attributes"
      · subst hl
        cases v₀ with
        | vnull => simp [parseSourceBody] at h
        | vdict items =>
          simp only [parseSourceBody, beq_self_eq_true, if_true] at h
          obtain ⟨r₂, h1, h2⟩ := exceptBind_ok h
          exact ih r₂.1 c r₂.2 r l d av ds h2 hm' hlab
        | vbool b => simp [parseSourceBody] at h
        | vint n => simp [parseSourceBody] at h
        | vstr s => simp [parseSourceBody] at h
        | vlist xs => simp [parseSourceBody] at h
      · have hlb : (l₀ == "attributes") = false := beq_eq_false_iff_ne.mpr hl
        cases v₀ with
        | vnull => simp [parseSourceBody] at h
        | vdict dests =>
          simp only [parseSourceBody, hlb, Bool.false_eq_true, if_false] at h
          obtain ⟨r₂, h1, h2⟩ := exceptBind_ok h
          exact ih r₂.1 c r₂.2 r l d av ds h2 hm' hlab
        | vbool b =>
          simp only [parseSourceBody, hlb, Bool.false_eq_true, if_false] at h
          obtain ⟨r₂, h1, _⟩ := exceptBind_ok h
          simp [parseEdges] at h1
        | vint n =>
          simp only [parseSourceBody, hlb, Bool.false_eq_true, if_false] at h
          obtain ⟨r₂, h1, _⟩ := exceptBind_ok h
          simp [parseEdges] at h1
        | vstr s' =>
          simp only [parseSourceBody, hlb, Bool.false_eq_true, if_false] at h
          obtain ⟨r₂, h1, _⟩ := exceptBind_ok h
          simp [parseEdges] at h1
        | vlist xs =>
          simp only [parseSourceBody, hlb, Bool.false_eq_true, if_false] at h
          obtain ⟨r₂, h1, _⟩ := exceptBind_ok h
          simp [parseEdges] at h1

theorem parseOntologySchema_mem_mono :
    ∀ (entries : List (String × Value)) (st : PState) (osd : ISchema)
      (r : PState × ISchema),
      parseOntologySchema st entries osd = .ok r →
      ∀ s, s ∈ akeys st.metaNodes → s ∈ akeys r.1.metaNodes := by
  intro entries
  induction entries with
  | nil =>
    intro st osd r h s hs
    simp only [parseOntologySchema, Except.ok.injEq] at h
    rw [← h]
    exact hs
  | cons p rest ih =>
    intro st osd r h s hs
    obtain ⟨c, b⟩ := p
    cases b with
    | vnull =>
      simp only [parseOntologySchema] at h
      exact ih st osd r h s hs
    | vdict items =>
      simp only [parseOntologySchema] at h
      obtain ⟨r₂, h1, h2⟩ := exceptBind_ok h
      exact ih r₂.1 (ainsert osd c r₂.2) r h2 s
        (parseSourceBody_mem_mono items (registerNode st c) c [] r₂ h1 s
          (registerNode_mem_mono hs))
    | vbool b => simp [parseOntologySchema] at h
    | vint n => simp [parseOntologySchema] at h
    | vstr s' => simp [parseOntologySchema] at h
    | vlist xs => simp [parseOntologySchema] at h

theorem parseOntologySchema_class_mem :
    ∀ (entries : List (String × Value)) (st : PState) (osd : ISchema)
      (r : PState × ISchema) (c : String) (b : Value),
      parseOntologySchema st entries osd = .ok r →
      (c, b) ∈ entries → b ≠ .vnull → c ∈ akeys r.1.metaNodes := by
  intro entries
  induction entries with
  | nil =>
    intro st osd r c b _ hm _
    simp at hm
  | cons p rest ih =>
    intro st osd r c b h hm hb
    rcases List.mem_cons.mp hm with he | hm'
    · rw [← he] at h
      cases b with
      | vnull => exact absurd rfl hb
      | vdict items =>
        simp only [parseOntologySchema] at h
        obtain ⟨r₂, h1, h2⟩ := exceptBind_ok h
        exact parseOntologySchema_mem_mono rest r₂.1 (ainsert osd c r₂.2) r h2 c
          (parseSourceBody_mem_mono items (registerNode st c) c [] r₂ h1 c
            (registerNode_self_mem st c))
      | vbool x => simp [parseOntologySchema] at h
      | vint x => simp [parseOntologySchema] at h
      | vstr x => simp [parseOntologySchema] at h
      | vlist x => simp [parseOntologySchema] at h
    · obtain ⟨c₀, b₀⟩ := p
      cases b₀ with
      | vnull =>
        simp only [parseOntologySchema] at h
        exact ih st osd r c b h hm' hb
      | vdict items =>
        simp only [parseOntologySchema] at h
        obtain ⟨r₂, h1, h2⟩ := exceptBind_ok h
        exact ih r₂.1 (ainsert osd c₀ r₂.2) r c b h2 hm' hb
      | vbool x => simp [parseOntologySchema] at h
      | vint x => simp [parseOntologySchema] at h
      | vstr x => simp [parseOntologySchema] at h
      | vlist x => simp [parseOntologySchema] at h

theorem parseOntologySchema_dest_mem :
    ∀ (entries : List (String × Value)) (st : PState) (osd : ISchema)
      (r : PState × ISchema) (c : String) (body : List (String × Value))
      (l d : String) (av : Value) (ds : List (String × Value)),
      parseOntologySchema st entries osd = .ok r →
      (c, Value.vdict body) ∈ entries →
      (l, Value.vdict ((d, av) :: ds)) ∈ body → l ≠ "attributes" →
      d ∈ akeys r.1.metaNodes := by
  intro entries
  induction entries with
  | nil =>
    intro st osd r c body l d av ds _ hm _ _
    simp at hm
  | cons p rest ih =>
    intro st osd r c body l d av ds h hm hl hlab
    rcases List.mem_cons.mp hm with he | hm'
    · rw [← he] at h
      simp only [parseOntologySchema] at h
      obtain ⟨r₂, h1, h2⟩ := exceptBind_ok h
      exact parseOntologySchema_mem_mono rest r₂.1 (ainsert osd c r₂.2) r h2 d
        (parseSourceBody_dest_mem body (registerNode st c) c [] r₂ l d av ds
          h1 hl hlab)
    · obtain ⟨c₀, b₀⟩ := p
      cases b₀ with
      | vnull =>
        simp only [parseOntologySchema] at h
        exact ih st osd r c body l d av ds h hm' hl hlab
      | vdict items =>
        simp only [parseOntologySchema] at h
        obtain ⟨r₂, h1, h2⟩ := exceptBind_ok h
        exact ih r₂.1 (ainsert osd c₀ r₂.2) r c body l d av ds h2 hm' hl hlab
      | vbool x => simp [parseOntologySchema] at h
      | vint x => simp [parseOntologySchema] at h
      | vstr x => simp [parseOntologySchema] at h
      | vlist x => simp [parseOntologySchema] at h

theorem untouched_registerNode {T : List String} {st : PState} {n' : String}
    (h : ∀ n, n ∉ T → alookup st.metaNodes n = none ∨
      alookup st.metaNodes n = some ⟨n, []⟩) :
    ∀ n, n ∉ T → alookup (registerNode st n').metaNodes n = none ∨
      alookup (registerNode st n').metaNodes n = some ⟨n, []⟩ := by
  intro n hn
  unfold registerNode
  cases alookup st.metaNodes n' with
  | some v => exact h n hn
  | none =>
    simp only
    rw [alookup_append]
    rcases h n hn with h0 | h0 <;> rw [h0]
    · by_cases he : n' = n
      · subst he
        simp [alookup]
      · simp [alookup, beq_eq_false_iff_ne.mpr he]
    · simp

theorem untouched_addAttrToNode {T : List String} {st : PState} {c a : String}
    (hc : c ∈ T)
    (h : ∀ n, n ∉ T → alookup st.metaNodes n = none ∨
      alookup st.metaNodes n = some ⟨n, []⟩) :
    ∀ n, n ∉ T → alookup (addAttrToNode st c a).metaNodes n = none ∨
      alookup (addAttrToNode st c a).metaNodes n = some ⟨n, []⟩ := by
  intro n hn
  unfold addAttrToNode
  cases alookup st.metaNodes c with
  | none => exact h n hn
  | some nd =>
    simp only
    rw [alookup_ainsert_ne _ _ _ _ (fun he => hn (by rw [he]; exact hc))]
    exact h n hn

theorem untouched_parseSourceAttributes {T : List String} :
    ∀ (items : List (String × Value)) (st : PState) (c : String)
      (sd : List (String × SEntry)) (r : PState × List (String × SEntry)),
      parseSourceAttributes st c items sd = .ok r → c ∈ T →
      (∀ n, n ∉ T → alookup st.metaNodes n = none ∨
        alookup st.metaNodes n = some ⟨n, []⟩) →
      ∀ n, n ∉ T → alookup r.1.metaNodes n = none ∨
        alookup r.1.metaNodes n = some ⟨n, []⟩ := by
  intro items
  induction items with
  | nil =>
    intro st c sd r h _ hu
    simp only [parseSourceAttributes, Except.ok.injEq] at h
    rw [← h]
    exact hu
  | cons p rest ih =>
    intro st c sd r h hc hu
    obtain ⟨l, vc⟩ := p
    simp only [parseSourceAttributes] at h
    obtain ⟨cnd, _, h2⟩ := exceptBind_ok h
    exact ih _ _ _ _ h2 hc (untouched_addAttrToNode hc hu)

theorem untouched_parseEdges {T : List String} {st : PState} {c l : String}
    {v : Value} {sd : List (String × SEntry)}
    {r : PState × List (String × SEntry)}
    (h : parseEdges st c l v sd = .ok r)
    (hu : ∀ n, n ∉ T → alookup st.metaNodes n = none ∨
      alookup st.metaNodes n = some ⟨n, []⟩) :
    ∀ n, n ∉ T → alookup r.1.metaNodes n = none ∨
      alookup r.1.metaNodes n = some ⟨n, []⟩ := by
  obtain ⟨d, av, ds, hv⟩ := parseEdges_shape h
  cases hv
  simp only [parseEdges] at h
  split at h
  · simp at h
  · obtain ⟨pr, _, h2⟩ := exceptBind_ok h
    simp only [Except.ok.injEq] at h2
    rw [← h2]
    exact untouched_registerNode hu

theorem untouched_parseSourceBody {T : List String} :
    ∀ (body : List (String × Value)) (st : PState) (c : String)
      (sd : List (String × SEntry)) (r : PState × List (String × SEntry)),
      parseSourceBody st c body sd = .ok r → c ∈ T →
      (∀ n, n ∉ T → alookup st.metaNodes n = none ∨
        alookup st.metaNodes n = some ⟨n, []⟩) →
      ∀ n, n ∉ T → alookup r.1.metaNodes n = none ∨
        alookup r.1.metaNodes n = some ⟨n, []⟩ := by
  intro body
  induction body with
  | nil =>
    intro st c sd r h _ hu
    simp only [parseSourceBody, Except.ok.injEq] at h
    rw [← h]
    exact hu
  | cons p rest ih =>
    intro st c sd r h hc hu
    obtain ⟨l, v⟩ := p
    by_cases hl : l = "attributes"
    · subst hl
      cases v with
      | vnull => simp [parseSourceBody] at h
      | vdict items =>
        simp only [parseSourceBody, beq_self_eq_true, if_true] at h
        obtain ⟨r₂, h1, h2⟩ := exceptBind_ok h
        exact ih r₂.1 c r₂.2 r h2 hc
          (untouched_parseSourceAttributes items st c sd r₂ h1 hc hu)
      | vbool b => simp [parseSourceBody] at h
      | vint n => simp [parseSourceBody] at h
      | vstr s => simp [parseSourceBody] at h
      | vlist xs => simp [parseSourceBody] at h
    · have hlb : (l == "attributes") = false := beq_eq_false_iff_ne.mpr hl
      cases v with
      | vnull => simp [parseSourceBody] at h
      | vdict dests =>
        simp only [parseSourceBody, hlb, Bool.false_eq_true, if_false] at h
        obtain ⟨r₂, h1, h2⟩ := exceptBind_ok h
        exact ih r₂.1 c r₂.2 r h2 hc (untouched_parseEdges h1 hu)
      | vbool b =>
        simp only [parseSourceBody, hlb, Bool.false_eq_true, if_false] at h
        obtain ⟨r₂, h1, _⟩ := exceptBind_ok h
        simp [parseEdges] at h1
      | vint n =>
        simp only [parseSourceBody, hlb, Bool.false_eq_true, if_false] at h
        obtain ⟨r₂, h1, _⟩ := exceptBind_ok h
        simp [parseEdges] at h1
      | vstr s' =>
        simp only [parseSourceBody, hlb, Bool.false_eq_true, if_false] at h
        obtain ⟨r₂, h1, _⟩ := exceptBind_ok h
        simp [parseEdges] at h1
      | vlist xs =>
        simp only [parseSourceBody, hlb, Bool.false_eq_true, if_false] at h
        obtain ⟨r₂, h1, _⟩ := exceptBind_ok h
        simp [parseEdges] at h1

theorem untouched_parseOntologySchema {T : List String} :
    ∀ (entries : List (String × Value)) (st : PState) (osd : ISchema)
      (r : PState × ISchema),
      parseOntologySchema st entries osd = .ok r →
      (∀ q ∈ entries, q.1 ∈ T) →
      (∀ n, n ∉ T → alookup st.metaNodes n = none ∨
        alookup st.metaNodes n = some ⟨n, []⟩) →
      ∀ n, n ∉ T → alookup r.1.metaNodes n = none ∨
        alookup r.1.metaNodes n = some ⟨n, []⟩ := by
  intro entries
  induction entries with
  | nil =>
    intro st osd r h _ hu
    simp only [parseOntologySchema, Except.ok.injEq] at h
    rw [← h]
    exact hu
  | cons p rest ih =>
    intro st osd r h hT hu
    obtain ⟨c, b⟩ := p
    have hcT : c ∈ T := hT (c, b) (List.mem_cons_self _ _)
    have hT' : ∀ q ∈ rest, q.1 ∈ T :=
      fun q hq => hT q (List.mem_cons_of_mem _ hq)
    cases b with
    | vnull =>
      simp only [parseOntologySchema] at h
      exact ih st osd r h hT' hu
    | vdict items =>
      simp only [parseOntologySchema] at h
      obtain ⟨r₂, h1, h2⟩ := exceptBind_ok h
      exact ih r₂.1 (ainsert osd c r₂.2) r h2 hT'
        (untouched_parseSourceBody items (registerNode st c) c [] r₂ h1 hcT
          (untouched_registerNode hu))
    | vbool x => simp [parseOntologySchema] at h
    | vint x => simp [parseOntologySchema] at h
    | vstr x => simp [parseOntologySchema] at h
    | vlist x => simp [parseOntologySchema] at h

theorem lastEdgeDestFrom_isSome_mono (decls : List (String × String × String))
    (src lbl : String) (acc : Option String) (h : acc.isSome = true) :
    (lastEdgeDestFrom decls src lbl acc).isSome = true := by
  induction decls generalizing acc with
  | nil => exact h
  | cons d ds ih =>
    rw [lastEdgeDestFrom_cons]
    apply ih
    split
    · rfl
    · exact h

theorem lastEdgeDestFrom_isSome_of_mem {decls : List (String × String × String)}
    {c l d : String} (h : (c, l, d) ∈ decls) (acc : Option String) :
    (lastEdgeDestFrom decls c l acc).isSome = true := by
  induction decls generalizing acc with
  | nil => simp at h
  | cons q ds ih =>
    rcases List.mem_cons.mp h with he | hm
    · rw [lastEdgeDestFrom_cons]
      apply lastEdgeDestFrom_isSome_mono
      rw [← he]
      simp
    · rw [lastEdgeDestFrom_cons]
      exact ih hm _

/-! ## Claim C8 — an undeclared destination class is implicitly created -/

/-- C8: when compile succeeds on a meta-document in which some class `c` has
an edge label `l` (≠ `attributes`) whose destination class `d` never appears
as a top-level class entry, compile has not failed because of the undeclared
destination: `d` is registered as a `MetaNode` with an empty attribute set
(an implicit declaration by `get_node`), and a `MetaEdge` for `(c, l)` is
registered. -/
theorem c8_implicit_destination_class (entries : List (String × Value))
    (ont : Ontology) (c l d : String) (body : List (String × Value))
    (av : Value) (ds : List (String × Value))
    (h : load_ontology (.vdict entries) = .ok ont)
    (hc : (c, Value.vdict body) ∈ entries)
    (hl : (l, Value.vdict ((d, av) :: ds)) ∈ body)
    (hlab : l ≠ "attributes")
    (hd : d ∉ akeys entries) :
    alookup ont.metaNodes d = some ⟨d, []⟩ ∧
    (getEdge ont c l).isSome = true := by
  unfold load_ontology at h
  by_cases hchk : checkMetaDoc (.vdict entries) = true
  · rw [if_pos hchk] at h
    obtain ⟨r, h1, h2⟩ := exceptBind_ok h
    simp only [Except.ok.injEq] at h2
    rw [← h2]
    constructor
    · have hmem : d ∈ akeys r.1.metaNodes :=
        parseOntologySchema_dest_mem entries ⟨[], []⟩ [] r c body l d av ds
          h1 hc hl hlab
      have hun := untouched_parseOntologySchema entries ⟨[], []⟩ [] r h1
        (fun q hq => List.mem_map.mpr ⟨q, hq, rfl⟩)
        (fun n _ => Or.inl rfl) d hd
      rcases hun with h0 | h0
      · exact absurd hmem ((alookup_eq_none_iff _ _).mp h0)
      · exact h0
    · have hdecl : (c, l, d) ∈ docEdgeDecls entries := by
        apply List.mem_flatMap.mpr
        refine ⟨(c, Value.vdict body), hc, ?_⟩
        simp only
        apply List.mem_flatMap.mpr
        refine ⟨(l, Value.vdict ((d, av) :: ds)), hl, ?_⟩
        simp [beq_eq_false_iff_ne.mpr hlab]
      obtain ⟨he, _⟩ := parseOntologySchema_edges entries ⟨[], []⟩ [] r h1
      have hds : (edgesDest r.1.metaEdges c l).isSome = true := by
        rw [he c l]
        exact lastEdgeDestFrom_isSome_of_mem hdecl _
      unfold edgesDest at hds
      simpa [getEdge, Option.isSome_map] using hds
  · rw [if_neg hchk] at h
    simp at h

/-- Witness for C8 at `metaUndeclaredDest`: `B` is only an edge destination,
yet compile succeeds, registers `B` with no attributes, and records the
edge. -/
theorem c8_witness :
    load_ontology metaUndeclaredDest = .ok ontUndeclaredDest ∧
    ("B" ∉ akeys [("A",
      Value.vdict [("e", Value.vdict [("B", Value.vnull)])])]) ∧
    (alookup ontUndeclaredDest.metaNodes "B" = some ⟨"B", []⟩ ∧
      (getEdge ontUndeclaredDest "A" "e").isSome = true) :=
  ⟨rfl, by decide,
    c8_implicit_destination_class
      [("A", Value.vdict [("e", Value.vdict [("B", Value.vnull)])])]
      ontUndeclaredDest "A" "e" "B"
      [("e", Value.vdict [("B", Value.vnull)])] .vnull []
      rfl (List.Mem.head _) (List.Mem.head _) (by decide) (by decide)⟩

/-! ## Class registration in the `Onthology` variant (claim C7) -/

theorem onthRegisterNode_mem_mono {st : OnthState} {n s : String}
    (h : s ∈ akeys st.metaNodes) :
    s ∈ akeys (onthRegisterNode st n).metaNodes := by
  unfold onthRegisterNode
  cases alookup st.metaNodes n with
  | some v => exact h
  | none =>
    simp only [akeys, List.map_append, List.mem_append]
    exact Or.inl h

theorem onthRegisterNode_self_mem (st : OnthState) (n : String) :
    n ∈ akeys (onthRegisterNode st n).metaNodes := by
  unfold onthRegisterNode
  cases hl : alookup st.metaNodes n with
  | some v => exact List.mem_map.mpr ⟨(n, v), alookup_mem hl, rfl⟩
  | none => simp [akeys]

theorem akeys_onthAddAttrToNode (st : OnthState) (c a : String) :
    akeys (onthAddAttrToNode st c a).metaNodes = akeys st.metaNodes := by
  unfold onthAddAttrToNode
  cases hl : alookup st.metaNodes c with
  | none => rfl
  | some n =>
    simp only
    have hmem : c ∈ akeys st.metaNodes :=
      List.mem_map.mpr ⟨(c, n), alookup_mem hl, rfl⟩
    rw [akeys_ainsert, if_pos hmem]

theorem onthSourceAttrs_akeys :
    ∀ (items : List (String × Value)) (st : OnthState) (c : String)
      (sd : List (String × SEntry)) (r : OnthState × List (String × SEntry)),
      onthSourceAttrs st c items sd = .ok r →
      akeys r.1.metaNodes = akeys st.metaNodes := by
  intro items
  induction items with
  | nil =>
    intro st c sd r h
    simp only [onthSourceAttrs, Except.ok.injEq] at h
    rw [← h]
  | cons p rest ih =>
    intro st c sd r h
    obtain ⟨l, vc⟩ := p
    simp only [onthSourceAttrs] at h
    obtain ⟨cnd, _, h2⟩ := exceptBind_ok h
    rw [ih _ _ _ _ h2, akeys_onthAddAttrToNode]

theorem onthBodyLoop_mem_mono :
    ∀ (body : List (String × Value)) (st : OnthState) (c : String)
      (sd : List (String × SEntry)) (r : OnthState × List (String × SEntry)),
      onthBodyLoop st c body sd = .ok r →
      ∀ s, s ∈ akeys st.metaNodes → s ∈ akeys r.1.metaNodes := by
  intro body
  induction body with
  | nil =>
    intro st c sd r h s hs
    simp only [onthBodyLoop, Except.ok.injEq] at h
    rw [← h]
    exact hs
  | cons p rest ih =>
    intro st c sd r h s hs
    obtain ⟨l, v⟩ := p
    by_cases hl : l = "attributes"
    · subst hl
      cases v with
      | vnull => simp [onthBodyLoop] at h
      | vdict items =>
        simp only [onthBodyLoop, beq_self_eq_true, if_true] at h
        obtain ⟨r₂, h1, h2⟩ := exceptBind_ok h
        apply ih r₂.1 c r₂.2 r h2
        rw [onthSourceAttrs_akeys items st c sd r₂ h1]
        exact hs
      | vbool b => simp [onthBodyLoop] at h
      | vint n => simp [onthBodyLoop] at h
      | vstr s => simp [onthBodyLoop] at h
      | vlist xs => simp [onthBodyLoop] at h
    · have hlb : (l == "attributes") = false := beq_eq_false_iff_ne.mpr hl
      cases v with
      | vnull => simp [onthBodyLoop] at h
      | vdict dests =>
        simp only [onthBodyLoop, hlb, Bool.false_eq_true, if_false] at h
        split at h
        · simp at h
        · match hdests : dests, h with
          | [], h => simp at h
          | (dl, al) :: ds, h =>
            obtain ⟨pr, _, h2⟩ := exceptBind_ok h
            exact ih _ c _ r h2 s (onthRegisterNode_mem_mono hs)
      | vbool b => simp [onthBodyLoop, hlb] at h
      | vint n => simp [onthBodyLoop, hlb] at h
      | vstr s' => simp [onthBodyLoop, hlb] at h
      | vlist xs => simp [onthBodyLoop, hlb] at h

theorem onthClassLoop_mem_mono :
    ∀ (entries : List (String × Value)) (st : OnthState) (osd : ISchema)
      (r : OnthState × ISchema),
      onthClassLoop st entries osd = .ok r →
      ∀ s, s ∈ akeys st.metaNodes → s ∈ akeys r.1.metaNodes := by
  intro entries
  induction entries with
  | nil =>
    intro st osd r h s hs
    simp only [onthClassLoop, Except.ok.injEq] at h
    rw [← h]
    exact hs
  | cons p rest ih =>
    intro st osd r h s hs
    obtain ⟨c, b⟩ := p
    cases b with
    | vnull =>
      simp only [onthClassLoop] at h
      exact ih _ osd r h s (onthRegisterNode_mem_mono hs)
    | vdict items =>
      simp only [onthClassLoop] at h
      obtain ⟨r₂, h1, h2⟩ := exceptBind_ok h
      exact ih r₂.1 (ainsert osd c r₂.2) r h2 s
        (onthBodyLoop_mem_mono items (onthRegisterNode st c) c [] r₂ h1 s
          (onthRegisterNode_mem_mono hs))
    | vbool x => simp [onthClassLoop] at h
    | vint x => simp [onthClassLoop] at h
    | vstr x => simp [onthClassLoop] at h
    | vlist x => simp [onthClassLoop] at h

theorem onthClassLoop_class_mem :
    ∀ (entries : List (String × Value)) (st : OnthState) (osd : ISchema)
      (r : OnthState × ISchema) (c : String) (b : Value),
      onthClassLoop st entries osd = .ok r →
      (c, b) ∈ entries → c ∈ akeys r.1.metaNodes := by
  intro entries
  induction entries with
  | nil =>
    intro st osd r c b _ hm
    simp at hm
  | cons p rest ih =>
    intro st osd r c b h hm
    rcases List.mem_cons.mp hm with he | hm'
    · rw [← he] at h
      cases b with
      | vnull =>
        simp only [onthClassLoop] at h
        exact onthClassLoop_mem_mono rest _ osd r h c
          (onthRegisterNode_self_mem st c)
      | vdict items =>
        simp only [onthClassLoop] at h
        obtain ⟨r₂, h1, h2⟩ := exceptBind_ok h
        exact onthClassLoop_mem_mono rest r₂.1 (ainsert osd c r₂.2) r h2 c
          (onthBodyLoop_mem_mono items (onthRegisterNode st c) c [] r₂ h1 c
            (onthRegisterNode_self_mem st c))
      | vbool x => simp [onthClassLoop] at h
      | vint x => simp [onthClassLoop] at h
      | vstr x => simp [onthClassLoop] at h
      | vlist x => simp [onthClassLoop] at h
    · obtain ⟨c₀, b₀⟩ := p
      cases b₀ with
      | vnull =>
        simp only [onthClassLoop] at h
        exact ih _ osd r c b h hm'
      | vdict items =>
        simp only [onthClassLoop] at h
        obtain ⟨r₂, h1, h2⟩ := exceptBind_ok h
        exact ih r₂.1 (ainsert osd c₀ r₂.2) r c b h2 hm'
      | vbool x => simp [onthClassLoop] at h
      | vint x => simp [onthClassLoop] at h
      | vstr x => simp [onthClassLoop] at h
      | vlist x => simp [onthClassLoop] at h

/-! ## Claim C7 — registration of top-level classes -/

/-- C7 amended: after a successful compile, every top-level class with a
non-null body is registered as a `MetaNode`.  A class whose body is `null` is
registered by the `Onthology` variant (src/onthology.py, whose `get_node`
runs before the null-body check — that variant registers every top-level
class), but not by the `Ontology` variant (src/ontology.py, which skips the
entry first, as the counterexample shows). -/
theorem c7_nonnull_classes_registered :
    (∀ (entries : List (String × Value)) (ont : Ontology) (c : String)
      (b : Value), load_ontology (.vdict entries) = .ok ont →
      (c, b) ∈ entries → b ≠ .vnull → c ∈ akeys ont.metaNodes) ∧
    (∀ (entries : List (String × Value)) (o : Onthology) (c : String)
      (b : Value), load_onthology (.vdict entries) = .ok o →
      (c, b) ∈ entries → c ∈ akeys o.metaNodes) := by
  constructor
  · intro entries ont c b h hm hb
    unfold load_ontology at h
    by_cases hchk : checkMetaDoc (.vdict entries) = true
    · rw [if_pos hchk] at h
      obtain ⟨r, h1, h2⟩ := exceptBind_ok h
      simp only [Except.ok.injEq] at h2
      rw [← h2]
      exact parseOntologySchema_class_mem entries ⟨[], []⟩ [] r c b h1 hm hb
    · rw [if_neg hchk] at h
      simp at h
  · intro entries o c b h hm
    unfold load_onthology at h
    by_cases hchk : checkMetaDoc (.vdict entries) = true
    · rw [if_pos hchk] at h
      obtain ⟨r, h1, h2⟩ := exceptBind_ok h
      simp only [Except.ok.injEq] at h2
      rw [← h2]
      exact onthClassLoop_class_mem entries ⟨[], []⟩ [] r c b h1 hm
    · rw [if_neg hchk] at h
      simp at h

/-- Witness for C7 at `metaNullBody`: the non-null class `B` is registered by
both variants, and the null-bodied class `A` by the `Onthology` variant. -/
theorem c7_witness :
    load_ontology metaNullBody = .ok ontNullBody ∧
    load_onthology metaNullBody = .ok onthNullBody ∧
    "B" ∈ akeys ontNullBody.metaNodes ∧ "A" ∈ akeys onthNullBody.metaNodes :=
  ⟨rfl, rfl,
    c7_nonnull_classes_registered.1 [("A", .vnull), ("B", .vdict [])]
      ontNullBody "B" (.vdict []) rfl
      (List.mem_cons_of_mem _ (List.Mem.head _))
      (fun he => Value.noConfusion he),
    c7_nonnull_classes_registered.2 [("A", .vnull), ("B", .vdict [])]
      onthNullBody "A" .vnull rfl (List.Mem.head _)⟩

/-! ## Claim C3 — malformed edge declarations are rejected before parsing -/

/-- C3: a meta-document in which some edge label (a class-body key other than
`attributes`) maps to a mapping with zero or with two or more destination
keys fails compile with the malformed-edge schema error (`'exactly one
destination is required'`).  The failure comes from the `META_ONTOLOGY`
pre-validation, which runs before the `Ontology` object is even constructed,
so no `MetaEdge` is registered and no meta-model is visible to the caller:
`load_ontology` returns the error, not an `Ontology`. -/
theorem c3_malformed_edge_rejected (entries : List (String × Value))
    (c l : String) (body dd : List (String × Value))
    (hc : (c, Value.vdict body) ∈ entries)
    (hl : (l, Value.vdict dd) ∈ body)
    (hlab : l ≠ "attributes") (hn : dd.length ≠ 1) :
    load_ontology (.vdict entries) = .error .metaSchemaViolation := by
  have hbody : checkBodyEntry l (.vdict dd) = false := by
    simp [checkBodyEntry, beq_eq_false_iff_ne.mpr hlab, hn]
  have hall : body.all (fun q => checkBodyEntry q.1 q.2) = false := by
    rw [Bool.eq_false_iff]
    intro hall
    have := List.all_eq_true.mp hall _ hl
    simp only at this
    rw [hbody] at this
    exact Bool.false_ne_true this
  have htop : checkMetaDoc (.vdict entries) = false := by
    rw [Bool.eq_false_iff]
    intro htop
    have h2 := (Bool.and_eq_true _ _).mp htop
    have := List.all_eq_true.mp h2.2 _ hc
    simp only at this
    rw [hall] at this
    exact Bool.false_ne_true this
  simp [load_ontology, htop]

/-- Witness for C3 at the concrete meta-document
`{A: {e: {B: null, C: null}}}` (two destinations for one label). -/
theorem c3_witness :
    ("e" : String) ≠ "attributes" ∧
    ([("B", Value.vnull), ("C", Value.vnull)].length ≠ 1) ∧
    load_ontology (.vdict [("A", .vdict
        [("e", .vdict [("B", .vnull), ("C", .vnull)])])]) =
      .error .metaSchemaViolation :=
  ⟨by decide, by decide,
    c3_malformed_edge_rejected _ "A" "e" _ _ (List.Mem.head _)
      (List.Mem.head _) (by decide) (by decide)⟩

/-! ## Claim C4 — a `null` validator spec does not accept every value -/

/-- C4 counterexample: the claim says a `null`-spec attribute accepts every
candidate value.  Compiling `{A: {attributes: {a: null}}}` and checking the
accepted-by-the-claim instance document `{A: {x: {a: 4}}}` against the
derived validator yields `false`: the stored literal `None` is compared with
`==`, so the value `4` is rejected. -/
theorem c4_counterexample :
    (load_ontology metaNullSpec).map (fun o =>
      checkInstanceTop o.ischema
        (.vdict [("A", .vdict [("x", .vdict [("a", .vint 4)])])])) =
      .ok false := rfl

/-- C4 amended: a `null` validator spec is stored as the literal `None` and
compared with `==`: the compiled condition accepts exactly the `null` value,
not every value. -/
theorem c4_null_spec_accepts_only_null :
    compileSpec .vnull = .ok (.eq .vnull) ∧
    ∀ v : Value, (checkCond (.eq .vnull) v = true ↔ v = .vnull) := by
  refine ⟨rfl, fun v => ?_⟩
  cases v <;> simp [checkCond, Value.eqb]

/-! ## Claim C6 — the round trip -/

/-- C6 counterexample: compiling the spec's round-trip meta-document, whose
validator specs are the literal token `"integer"`, fails outright —
`eval("integer")` raises `NameError` — so the claimed load can never
happen. -/
theorem c6_counterexample :
    load_ontology metaHostInteger = .error .nameError := rfl

/-- C6 amended: with the resolvable Python type name `"int"` in place of
`"integer"`, the round trip holds exactly as described: the instance graph
has exactly the two nodes `(Service, svc1)` (no attributes, no edges) and
`(Host, h1)` with `attribute_values {cpu: 4}` and the single outgoing edge
`runs` to `svc1` with edge attributes `{port: 80}` — and nothing more. -/
theorem c6_round_trip :
    (load_ontology metaHostInt).map (fun o => load_topology o instHostDoc) =
      .ok (.ok topoHost) := rfl

/-! ## Claim C9 — `add_instance` keys on the name, not the identity -/

/-- C9 counterexample: the registry holds only the identity `(A, x)` — no
node with identity `(B, x)` is registered — yet adding a node with identity
`(B, x)` fails instead of adding that one entry, because `Node.id()` is the
name alone. -/
theorem c9_counterexample :
    (Topology.instances ⟨[("x", ⟨"A", "x", [], []⟩)]⟩).map
        (fun p => (p.2.clsName, p.2.name)) = [("A", "x")] ∧
    add_instance ⟨[("x", ⟨"A", "x", [], []⟩)]⟩ ⟨"B", "x", [], []⟩ =
      .error .duplicateInstance :=
  ⟨rfl, rfl⟩

/-- C9 amended: `add_instance` fails — with the registry unchanged, since the
assertion fires before any mutation — exactly when a node with the same
*name* (the code's `id()`), of whatever class, is already registered; when
the name is fresh it adds exactly that one entry. -/
theorem c9_add_instance_by_name (t : Topology) (n : Node) :
    (n.name ∈ akeys t.instances →
      add_instance t n = .error .duplicateInstance) ∧
    (n.name ∉ akeys t.instances →
      add_instance t n = .ok ⟨t.instances ++ [(n.name, n)]⟩) := by
  constructor <;> intro h <;> simp [add_instance, akeys] at h ⊢ <;> simp [h]

/-- Witness for C9 at concrete inputs: a same-name add fails, a fresh-name
add appends the one entry. -/
theorem c9_witness :
    add_instance ⟨[("x", ⟨"A", "x", [], []⟩)]⟩ ⟨"C", "x", [], []⟩ =
      .error .duplicateInstance ∧
    add_instance ⟨[]⟩ ⟨"A", "y", [], []⟩ = .ok ⟨[("y", ⟨"A", "y", [], []⟩)]⟩ :=
  ⟨(c9_add_instance_by_name ⟨[("x", ⟨"A", "x", [], []⟩)]⟩ ⟨"C", "x", [], []⟩).1
      (by decide),
    (c9_add_instance_by_name ⟨[]⟩ ⟨"A", "y", [], []⟩).2 (by decide)⟩

/-! ## Claim C10 — the derived validator accepts `null` but load then dies -/

/-- C10: for every successfully compiled ontology, the derived instance
validator accepts the `null` (empty) instance document, yet `load_topology`
never returns an instance graph for it: after validation it calls `.items()`
on `None`, which raises `AttributeError` instead of producing an empty
graph. -/
theorem c10_null_doc_validates_but_load_fails (doc : Value) (ont : Ontology)
    (_h : load_ontology doc = .ok ont) :
    checkInstanceTop ont.ischema .vnull = true ∧
    load_topology ont .vnull = .error .attributeError :=
  ⟨rfl, rfl⟩

/-- Witness for C10 at the concrete meta-document `{A: {}}`. -/
theorem c10_witness :
    load_ontology metaSingleA = .ok ontSingleA ∧
    (checkInstanceTop ontSingleA.ischema .vnull = true ∧
     load_topology ontSingleA .vnull = .error .attributeError) :=
  ⟨rfl, c10_null_doc_validates_but_load_fails metaSingleA ontSingleA rfl⟩

/-! ## Simulation of the instance registry (claims C1 and C2) -/

theorem instDestNames_cons (ont : Ontology) (cid : String)
    (p : String × Value) (rest : List (String × Value)) :
    instDestNames ont cid (p :: rest) =
      (match getEdge ont cid p.1, p.2 with
       | some _, .vdict dests => akeys dests
       | _, _ => []) ++ instDestNames ont cid rest := by
  simp [instDestNames]

theorem instEvents_cons (ont : Ontology) (cid : String) (q : String × Value)
    (rest : List (String × Value)) :
    instEvents ont cid (q :: rest) =
      (match q.2 with
       | .vdict attrs =>
         (instDestNames ont cid attrs).map OccEv.dest ++ [.top q.1]
       | _ => []) ++ instEvents ont cid rest := by
  simp [instEvents]

theorem get_instance_keys (top : Topology) (cls : MetaNode) (n : String) :
    akeys (get_instance top cls n).1.instances =
      addNameIfAbsent (akeys top.instances) n := by
  unfold get_instance addNameIfAbsent
  cases hl : alookup top.instances n with
  | some nd =>
    have hmem : n ∈ akeys top.instances :=
      List.mem_map.mpr ⟨(n, nd), alookup_mem hl, rfl⟩
    rw [if_pos (List.elem_iff.mpr hmem)]
  | none =>
    have hni : n ∉ akeys top.instances := (alookup_eq_none_iff _ _).mp hl
    have hc : ¬ ((akeys top.instances).contains n = true) := by
      intro hc
      exact hni (List.elem_iff.mp hc)
    rw [if_neg hc]
    simp [akeys]

theorem createDestinations_keys :
    ∀ (ds : List (String × Value)) (top : Topology) (dcls : MetaNode)
      (src : Node) (lbl : String),
      akeys (createDestinations top dcls src lbl ds).1.instances =
        (ds.map Prod.fst).foldl addNameIfAbsent (akeys top.instances) ∧
      (createDestinations top dcls src lbl ds).2.name = src.name := by
  intro ds
  induction ds with
  | nil => intro top dcls src lbl; exact ⟨rfl, rfl⟩
  | cons p rest ih =>
    intro top dcls src lbl
    obtain ⟨dn, dattrs⟩ := p
    simp only [createDestinations]
    obtain ⟨ihk, ihn⟩ := ih (get_instance top dcls dn).1 dcls
      { src with outgoingEdges :=
          src.outgoingEdges ++ [⟨src.name, dn, lbl, orEmptyDict dattrs⟩] } lbl
    constructor
    · rw [ihk, get_instance_keys]
      rfl
    · rw [ihn]

theorem createTopologyForKnownSource_keys {ont : Ontology} {top : Topology}
    {destCid : String} {v : Value} {src : Node} {lbl : String}
    {r : Topology × Node}
    (h : createTopologyForKnownSource ont top destCid v src lbl = .ok r) :
    ∃ dests, v = .vdict dests ∧
      akeys r.1.instances =
        (dests.map Prod.fst).foldl addNameIfAbsent (akeys top.instances) ∧
      r.2.name = src.name := by
  unfold createTopologyForKnownSource at h
  cases hmn : alookup ont.metaNodes destCid with
  | none =>
    rw [hmn] at h
    simp at h
  | some destCls =>
    rw [hmn] at h
    cases v with
    | vdict dests =>
      simp only [Except.ok.injEq] at h
      refine ⟨dests, rfl, ?_, ?_⟩
      · rw [← h]
        exact (createDestinations_keys dests top destCls src lbl).1
      · rw [← h]
        exact (createDestinations_keys dests top destCls src lbl).2
    | vnull => simp at h
    | vbool b => simp at h
    | vint n => simp at h
    | vstr s => simp at h
    | vlist xs => simp at h

theorem loadInstanceAttrs_keys :
    ∀ (attrs : List (String × Value)) (ont : Ontology) (top : Topology)
      (cid : String) (src : Node) (r : Topology × Node),
      loadInstanceAttrs ont top cid src attrs = .ok r →
      akeys r.1.instances =
        (instDestNames ont cid attrs).foldl addNameIfAbsent
          (akeys top.instances) ∧
      r.2.name = src.name := by
  intro attrs
  induction attrs with
  | nil =>
    intro ont top cid src r h
    simp only [loadInstanceAttrs, Except.ok.injEq] at h
    rw [← h]
    exact ⟨rfl, rfl⟩
  | cons p rest ih =>
    intro ont top cid src r h
    obtain ⟨l, v⟩ := p
    simp only [loadInstanceAttrs] at h
    cases hge : getEdge ont cid l with
    | none =>
      rw [hge] at h
      obtain ⟨ihk, ihn⟩ := ih ont top cid
        { src with attributeValues := ainsert src.attributeValues l v } r h
      have hdn : instDestNames ont cid ((l, v) :: rest) =
          instDestNames ont cid rest := by
        rw [instDestNames_cons]
        simp [hge]
      rw [hdn]
      exact ⟨ihk, ihn⟩
    | some e =>
      rw [hge] at h
      obtain ⟨r₂, h1, h2⟩ := exceptBind_ok h
      obtain ⟨dests, hv, hk2, hn2⟩ := createTopologyForKnownSource_keys h1
      cases hv
      obtain ⟨ihk, ihn⟩ := ih ont r₂.1 cid r₂.2 r h2
      have hdn : instDestNames ont cid ((l, Value.vdict dests) :: rest) =
          akeys dests ++ instDestNames ont cid rest := by
        rw [instDestNames_cons]
        simp [hge]
      rw [hdn]
      constructor
      · rw [ihk, hk2, List.foldl_append]
        rfl
      · rw [ihn, hn2]

theorem add_instance_ok_keys {top : Topology} {n : Node} {top' : Topology}
    (h : add_instance top n = .ok top') :
    (akeys top.instances).contains n.name = false ∧
      akeys top'.instances = akeys top.instances ++ [n.name] := by
  unfold add_instance at h
  cases hc : (akeys top.instances).contains n.name with
  | true => rw [if_pos hc] at h; simp at h
  | false =>
    rw [if_neg (fun hcc => Bool.false_ne_true (hc ▸ hcc))] at h
    simp only [Except.ok.injEq] at h
    rw [← h]
    exact ⟨rfl, by simp [akeys]⟩

theorem keysGo_dests :
    ∀ (names : List String) (evs : List OccEv) (ks : List String),
      keysGo (names.map OccEv.dest ++ evs) ks =
        keysGo evs (names.foldl addNameIfAbsent ks) := by
  intro names
  induction names with
  | nil => intro evs ks; rfl
  | cons n rest ih =>
    intro evs ks
    simp only [List.map_cons, List.cons_append, keysGo]
    exact ih evs (addNameIfAbsent ks n)

theorem keysGo_append {evs₁ : List OccEv} {ks ks' : List String}
    (h : keysGo evs₁ ks = some ks') (evs₂ : List OccEv) :
    keysGo (evs₁ ++ evs₂) ks = keysGo evs₂ ks' := by
  induction evs₁ generalizing ks with
  | nil =>
    simp only [keysGo, Option.some.injEq] at h
    rw [h]
    rfl
  | cons e rest ih =>
    cases e with
    | dest n =>
      simp only [keysGo, List.cons_append] at h ⊢
      exact ih h
    | top n =>
      simp only [keysGo, List.cons_append] at h ⊢
      split at h
      · simp at h
      · next hc =>
        rw [if_neg hc]
        exact ih h

theorem loadInstances_keysGo :
    ∀ (insts : List (String × Value)) (ont : Ontology) (top : Topology)
      (cid : String) (scls : MetaNode) (r : Topology),
      loadInstances ont top cid scls insts = .ok r →
      keysGo (instEvents ont cid insts) (akeys top.instances) =
        some (akeys r.instances) := by
  intro insts
  induction insts with
  | nil =>
    intro ont top cid scls r h
    simp only [loadInstances, Except.ok.injEq] at h
    rw [h]
    rfl
  | cons q rest ih =>
    intro ont top cid scls r h
    obtain ⟨n, av⟩ := q
    cases av with
    | vdict attrs =>
      simp only [loadInstances] at h
      obtain ⟨r₂, h1, h2⟩ := exceptBind_ok h
      obtain ⟨top₃, h3, h4⟩ := exceptBind_ok h2
      obtain ⟨ihk, ihn⟩ := loadInstanceAttrs_keys attrs ont top cid
        ⟨scls.name, n, [], []⟩ r₂ h1
      obtain ⟨hfree, hkeys⟩ := add_instance_ok_keys h3
      rw [instEvents_cons]
      simp only
      rw [List.append_assoc, keysGo_dests]
      have hn2 : r₂.2.name = n := ihn
      rw [← ihk]
      simp only [keysGo, List.singleton_append]
      rw [hn2] at hfree
      rw [if_neg (fun hcc => Bool.false_ne_true (hfree ▸ hcc))]
      have := ih ont top₃ cid scls r h4
      rw [hkeys, hn2] at this
      exact this
    | vnull => simp [loadInstances] at h
    | vbool b => simp [loadInstances] at h
    | vint m => simp [loadInstances] at h
    | vstr s => simp [loadInstances] at h
    | vlist xs => simp [loadInstances] at h

theorem loadClasses_keysGo :
    ∀ (entries : List (String × Value)) (ont : Ontology) (top : Topology)
      (r : Topology),
      loadClasses ont top entries = .ok r →
      keysGo (entries.flatMap (fun p =>
          match p.2 with
          | .vdict insts => instEvents ont p.1 insts
          | _ => [])) (akeys top.instances) = some (akeys r.instances) := by
  intro entries
  induction entries with
  | nil =>
    intro ont top r h
    simp only [loadClasses, Except.ok.injEq] at h
    rw [h]
    rfl
  | cons p rest ih =>
    intro ont top r h
    obtain ⟨cid, iv⟩ := p
    simp only [loadClasses] at h
    cases hmn : alookup ont.metaNodes cid with
    | none =>
      rw [hmn] at h
      simp at h
    | some scls =>
      rw [hmn] at h
      cases iv with
      | vdict insts =>
        obtain ⟨top₂, h1, h2⟩ := exceptBind_ok h
        have hk1 := loadInstances_keysGo insts ont top cid scls top₂ h1
        simp only [List.flatMap_cons]
        rw [keysGo_append hk1]
        exact ih ont top₂ r h2
      | vnull => simp at h
      | vbool b => simp at h
      | vint m => simp at h
      | vstr s => simp at h
      | vlist xs => simp at h

theorem load_topology_keysGo {ont : Ontology} {doc : Value} {t : Topology}
    (h : load_topology ont doc = .ok t) :
    keysGo (occEvents ont doc) [] = some (akeys t.instances) := by
  unfold load_topology at h
  by_cases hchk : checkInstanceTop ont.ischema doc = true
  · rw [if_pos hchk] at h
    cases doc with
    | vdict entries => exact loadClasses_keysGo entries ont ⟨[]⟩ t h
    | vnull => simp at h
    | vbool b => simp at h
    | vint n => simp at h
    | vstr s => simp at h
    | vlist xs => simp at h
  · rw [if_neg hchk] at h
    simp at h

theorem keysGo_eq_foldl :
    ∀ (evs : List OccEv) (ks ks' : List String),
      keysGo evs ks = some ks' →
      ks' = (evs.map occName).foldl addNameIfAbsent ks := by
  intro evs
  induction evs with
  | nil =>
    intro ks ks' h
    simp only [keysGo, Option.some.injEq] at h
    rw [h]
    rfl
  | cons e rest ih =>
    intro ks ks' h
    cases e with
    | dest n =>
      simp only [keysGo] at h
      exact ih _ _ h
    | top n =>
      simp only [keysGo] at h
      split at h
      · simp at h
      · next hc =>
        have : ks ++ [n] = addNameIfAbsent ks n := by
          unfold addNameIfAbsent
          rw [if_neg hc]
        simp only [List.map_cons, List.foldl_cons, occName]
        rw [← this]
        exact ih _ _ h

theorem addNameIfAbsent_nodup {ks : List String} {n : String}
    (h : ks.Nodup) : (addNameIfAbsent ks n).Nodup := by
  unfold addNameIfAbsent
  split
  · exact h
  · next hc =>
    have : n ∉ ks := fun hm => hc (List.elem_iff.mpr hm)
    simp [List.nodup_append, h, this]

theorem keysGo_nodup :
    ∀ (evs : List OccEv) (ks ks' : List String),
      ks.Nodup → keysGo evs ks = some ks' → ks'.Nodup := by
  intro evs
  induction evs with
  | nil =>
    intro ks ks' hn h
    simp only [keysGo, Option.some.injEq] at h
    rw [← h]
    exact hn
  | cons e rest ih =>
    intro ks ks' hn h
    cases e with
    | dest n =>
      simp only [keysGo] at h
      exact ih _ _ (addNameIfAbsent_nodup hn) h
    | top n =>
      simp only [keysGo] at h
      split at h
      · simp at h
      · next hc =>
        have hnm : n ∉ ks := fun hm => hc (List.elem_iff.mpr hm)
        exact ih _ _ (by simp [List.nodup_append, hn, hnm]) h

/-! ## Counterexamples for C1, C2 and C7 -/

/-- C1 counterexample: the document `docMerge` is accepted by the derived
validator and mentions three distinct `(class, name)` identity pairs —
`(B, x)`, `(C, x)` and `(A, a1)` — but the loaded graph holds only two node
objects, and the reference to `(C, x)` was silently merged into the class-`B`
node of the same name: the registry keys on the name alone. -/
theorem c1_counterexample :
    (load_ontology metaMerge).map (fun o =>
      (claimedIdentityPairs o docMerge,
        (load_topology o docMerge).map (fun t =>
          t.instances.map (fun p => (p.2.clsName, p.2.name))))) =
      .ok ([("B", "x"), ("C", "x"), ("A", "a1")],
        .ok [("B", "x"), ("A", "a1")]) := rfl

/-- C2 counterexample: in `docFwd` the name `b1` first occurs as an edge
destination and later as its own top-level entry under `B`; the document is
accepted by the derived validator, but `load_topology` does not return — the
top-level entry builds a fresh `Node` and `add_instance`'s assertion fails on
the already-registered name. -/
theorem c2_counterexample :
    (load_ontology metaFwd).map (fun o =>
      (checkInstanceTop o.ischema docFwd, load_topology o docFwd)) =
      .ok (true, .error .duplicateInstance) := rfl

/-- C7 counterexample: compiling `{A: null, B: {}}` with the `Ontology`
variant registers only `B` — the null-bodied top-level class `A` is skipped
before `get_node` and never becomes a `MetaNode`. -/
theorem c7_counterexample :
    (load_ontology metaNullBody).map (fun o =>
      (akeys o.metaNodes, (akeys o.metaNodes).contains "A")) =
      .ok (["B"], false) := rfl

/-! ## Claim C1 amended — identity deduplication is by name -/

/-- C1 amended: whenever `load_topology` returns an instance graph, the
registry holds at most one `Node` object per instance *name* — `Node.id()` is
the name alone, the class takes no part in the key — and the registered names
are exactly the distinct names occurring in the document as top-level entries
or as edge destinations, in first-occurrence order.  Two identities whose
classes differ but whose names coincide are merged into one node, as the
counterexample shows. -/
theorem c1_dedup_by_name (ont : Ontology) (doc : Value) (t : Topology)
    (h : load_topology ont doc = .ok t) :
    (akeys t.instances).Nodup ∧ akeys t.instances = collectNames ont doc := by
  have hk := load_topology_keysGo h
  constructor
  · exact keysGo_nodup _ _ _ List.nodup_nil hk
  · exact keysGo_eq_foldl _ _ _ hk

/-- Witness for C1 at `docOneEdge` loaded against `ontAB`. -/
theorem c1_witness :
    load_topology ontAB docOneEdge = .ok topOneEdge ∧
    ((akeys topOneEdge.instances).Nodup ∧
      akeys topOneEdge.instances = collectNames ontAB docOneEdge) :=
  ⟨rfl, c1_dedup_by_name ontAB docOneEdge topOneEdge rfl⟩

/-! ## Claim C2 amended — forward references abort the load -/

/-- C2 amended: whenever the registry replay of a document's name occurrences
dies — that is, some top-level instance entry's name was already registered
when its `add_instance` ran, in particular when the name first occurred as an
edge destination and later as its own top-level entry — `load_topology` does
not return an instance graph: the `add_instance` assertion fails instead of
merging the forward-created node with the later top-level attributes. -/
theorem c2_forward_reference_fails (ont : Ontology) (doc : Value)
    (h : keysGo (occEvents ont doc) [] = none) :
    isOkExcept (load_topology ont doc) = false := by
  cases hl : load_topology ont doc with
  | error e => rfl
  | ok t =>
    rw [load_topology_keysGo hl] at h
    simp at h

/-- Witness for C2 at `docFwdW`, where `y` is first an edge destination and
later a top-level entry of class `B`. -/
theorem c2_witness :
    keysGo (occEvents ontAB docFwdW) [] = none ∧
    isOkExcept (load_topology ontAB docFwdW) = false :=
  ⟨rfl, c2_forward_reference_fails ontAB docFwdW rfl⟩

end GraphOntology
